import Mathlib

/-!
Verification development for the arrow2-convert core: a shallow embedding of
the typed serialize/deserialize bridge between native values and columnar
arrays (`src/arrow2_convert/src/serialize.rs` and `deserialize.rs`), together
with theorems about its round-trip, error-handling and builder behaviour.

Modelling conventions:
 - Machine integers carry no arithmetic in this code (they are copied
   opaquely), so every primitive carrier is modelled as `Int`; `f32`/`f64`
   values are likewise opaque bit patterns modelled as `Int`.
 - Panics (a failed downcast `unwrap`, or `Option::unwrap` on a missing
   value inside `arrow_deserialize_internal`) are modelled as `none` in an
   outer `Option` layer; `arrow2::error::Result` is modelled as `Except`.
 - Variable-length string/binary builders are modelled by their logical
   content (list of payloads plus validity); the physical offset buffer of a
   finalized list array is kept explicitly because the list iterator slices
   through it.
 - Capacity reservation is observable only through explicit `cap` /
   `valuesCap` bookkeeping fields recording what was reserved.
-/

set_option maxHeartbeats 1000000

/-- Time unit of a timestamp logical type (arrow2 `TimeUnit`). -/
inductive TimeUnit where
  | second
  | millisecond
  | microsecond
  | nanosecond
deriving DecidableEq, Repr

/-- Logical data type tag recorded on every array (arrow2 `DataType`),
restricted to the types the two conversion modules use. List item fields
carry a name, an item type and a nullability flag. -/
inductive DataType where
  | uint8
  | uint16
  | uint32
  | uint64
  | int8
  | int16
  | int32
  | int64
  | float32
  | float64
  | boolean
  | utf8
  | largeUtf8
  | binary
  | largeBinary
  | date32
  | timestamp (unit : TimeUnit) (tz : Option String)
  | list (itemName : String) (itemType : DataType) (itemNullable : Bool)
  | largeList (itemName : String) (itemType : DataType) (itemNullable : Bool)
deriving DecidableEq, Repr

/-- The error type (`arrow2::error::ArrowError`) restricted to the variants
this code can produce: the explicit `InvalidArgumentError` raised on a data
type mismatch, and the offset-overflow error raised by `try_push` /
`try_push_valid` on variable-length builders. -/
inductive ArrowError where
  | invalidArgumentError (msg : String)
  | overflow
deriving DecidableEq, Repr

/-- Physical Rust type of a primitive array; the downcast in
`iter_from_array_ref` distinguishes `PrimitiveArray<T>` by this tag only. -/
inductive PhysTag where
  | pU8
  | pU16
  | pU32
  | pU64
  | pI8
  | pI16
  | pI32
  | pI64
  | pF32
  | pF64
deriving DecidableEq, Repr

/-- Offset width of a variable-length physical array (`i32` or `i64`). -/
inductive OffTag where
  | o32
  | o64
deriving DecidableEq, Repr

/-- Largest value an offset of the given width can store. -/
def OffTag.maxOffset : OffTag → Nat
  | .o32 => 2 ^ 31 - 1
  | .o64 => 2 ^ 63 - 1

/-- Physical payload of a type-erased immutable array. A list array stores
absolute offsets into a whole child array together with the recorded data
type of that child (`ListArray::values` is itself a `Box<dyn Array>`). -/
inductive PhysArray where
  | prim (tag : PhysTag) (values : List Int) (validity : List Bool)
  | boolA (values : List Bool) (validity : List Bool)
  | utf8A (off : OffTag) (values : List String) (validity : List Bool)
  | binA (off : OffTag) (values : List (List Nat)) (validity : List Bool)
  | listA (off : OffTag) (offsets : List Nat) (childType : DataType)
      (child : PhysArray) (validity : List Bool)
deriving DecidableEq, Repr

/-- A type-erased immutable array (`dyn Array`): physical payload plus the
recorded logical data type returned by `Array::data_type`. -/
structure AnyArray where
  dataType : DataType
  phys : PhysArray
deriving DecidableEq, Repr

/-- Number of rows of a physical array (`Array::len`). -/
def PhysArray.len : PhysArray → Nat
  | .prim _ vs _ => vs.length
  | .boolA vs _ => vs.length
  | .utf8A _ vs _ => vs.length
  | .binA _ vs _ => vs.length
  | .listA _ offs _ _ _ => offs.length - 1

/-- Number of rows of a type-erased array. -/
def AnyArray.len (a : AnyArray) : Nat := a.phys.len

/-- Days between 0001-01-01 (CE) and the 1970 epoch
(`arrow2::temporal_conversions::EPOCH_DAYS_FROM_CE`). -/
def EPOCH_DAYS_FROM_CE : Int := 719163

/-- Calendar date (chrono `NaiveDate`), identified by its day count from CE;
the external runtime converts bijectively between this and epoch day counts. -/
structure NaiveDate where
  numDaysFromCE : Int
deriving DecidableEq, Repr

/-- Date-time value (chrono `NaiveDateTime`), identified by its nanosecond
count since the 1970 epoch. -/
structure NaiveDateTime where
  nanosSinceEpoch : Int
deriving DecidableEq, Repr

/-- External runtime helper `date32_to_date`: epoch day count to date. -/
def date32_to_date (d : Int) : NaiveDate := ⟨d + EPOCH_DAYS_FROM_CE⟩

/-- External runtime helper `timestamp_ns_to_datetime`. -/
def timestamp_ns_to_datetime (ns : Int) : NaiveDateTime := ⟨ns⟩

/-- chrono `Datelike::num_days_from_ce`. -/
def NaiveDate.num_days_from_ce (d : NaiveDate) : Int := d.numDaysFromCE

/-- chrono `NaiveDateTime::timestamp_nanos`. -/
def NaiveDateTime.timestamp_nanos (v : NaiveDateTime) : Int := v.nanosSinceEpoch

/-- The ten numeric Rust types covered by `impl_numeric_type!`. -/
inductive PrimTy where
  | u8
  | u16
  | u32
  | u64
  | i8
  | i16
  | i32
  | i64
  | f32
  | f64
deriving DecidableEq, Repr

/-- Physical array type used by a numeric type. -/
def PrimTy.physTag : PrimTy → PhysTag
  | .u8 => .pU8
  | .u16 => .pU16
  | .u32 => .pU32
  | .u64 => .pU64
  | .i8 => .pI8
  | .i16 => .pI16
  | .i32 => .pI32
  | .i64 => .pI64
  | .f32 => .pF32
  | .f64 => .pF64

/-- Logical data type of a numeric type. -/
def PrimTy.dataType : PrimTy → DataType
  | .u8 => .uint8
  | .u16 => .uint16
  | .u32 => .uint32
  | .u64 => .uint64
  | .i8 => .int8
  | .i16 => .int16
  | .i32 => .int32
  | .i64 => .int64
  | .f32 => .float32
  | .f64 => .float64

/-- The native value types for which the crate provides a matched
`ArrowSerialize` / `ArrowDeserialize` capability pair: numeric scalars,
`bool`, `String` / `LargeString`, `Vec<u8>` / `LargeBinary`, `NaiveDate`,
`NaiveDateTime`, `Option<T>`, `Vec<T>` and `LargeVec<T>`. -/
inductive Ty where
  | prim (p : PrimTy)
  | boolean
  | str
  | largeStr
  | binary
  | largeBinary
  | date
  | timestamp
  | option (t : Ty)
  | vec (t : Ty)
  | largeVec (t : Ty)
deriving DecidableEq, Repr

/-- True when the type is not an `Option` wrapper. -/
def Ty.notOption : Ty → Bool
  | .option _ => false
  | _ => true

/-- A supported logical type in the sense of the spec data model: a base
type plus at most one nullability wrapper at each level (the optional
wrapper is a nullability flag, so `Option<Option<T>>` is not a logical
type of the data model). -/
def Ty.wf : Ty → Bool
  | .option t => t.notOption && t.wf
  | .vec t => t.wf
  | .largeVec t => t.wf
  | _ => true

/-- Modelled from the spec: `ArrowField::is_nullable` lives in the crate
module `field.rs`, which is not under `src/`; per the spec the optional
wrapper is always nullable and all other types are not. -/
def Ty.isNullable : Ty → Bool
  | .option _ => true
  | _ => false

/-- Modelled from the spec: `ArrowField::data_type` lives in the crate
module `field.rs`, which is not under `src/`. Per the spec each native type
has one logical type tag; the optional wrapper shares the wrapped data type
(nullability is a separate flag), lists use an `"item"` child field named in
`serialize.rs`, dates are 32-bit day counts and timestamps are nanosecond
counts. -/
def Ty.dataType : Ty → DataType
  | .prim p => p.dataType
  | .boolean => .boolean
  | .str => .utf8
  | .largeStr => .largeUtf8
  | .binary => .binary
  | .largeBinary => .largeBinary
  | .date => .date32
  | .timestamp => .timestamp .nanosecond none
  | .option t => t.dataType
  | .vec t => .list "item" t.dataType t.isNullable
  | .largeVec t => .largeList "item" t.dataType t.isNullable

/-- The native Rust value type (`ArrowField::Type`) of each logical type. -/
@[reducible] def Ty.Native : Ty → Type
  | .prim _ => Int
  | .boolean => Bool
  | .str => String
  | .largeStr => String
  | .binary => List Nat
  | .largeBinary => List Nat
  | .date => NaiveDate
  | .timestamp => NaiveDateTime
  | .option t => Option t.Native
  | .vec t => List t.Native
  | .largeVec t => List t.Native

/-- The value carried by one present physical element when iterating the
array type of a logical type: the iterator item is `Option` of this. For a
list type the element of one row is a whole type-erased sub-array. The
`Option` wrapper shares the wrapped array type and hence its item. -/
@[reducible] def Ty.ItemVal : Ty → Type
  | .prim _ => Int
  | .boolean => Bool
  | .str => String
  | .largeStr => String
  | .binary => List Nat
  | .largeBinary => List Nat
  | .date => Int
  | .timestamp => Int
  | .option t => t.ItemVal
  | .vec _ => AnyArray
  | .largeVec _ => AnyArray

/-- Mutable primitive builder (`MutablePrimitiveArray<T>`): values, validity
and reserved capacity. -/
structure MutablePrimitiveArray where
  values : List Int
  validity : List Bool
  cap : Nat
deriving DecidableEq, Repr

/-- Mutable boolean builder (`MutableBooleanArray`). -/
structure MutableBooleanArray where
  values : List Bool
  validity : List Bool
  cap : Nat
deriving DecidableEq, Repr

/-- Mutable UTF-8 builder (`MutableUtf8Array<O>`), abstracted to its row
payloads; `valuesCap` records reserved payload bytes. -/
structure MutableUtf8Array where
  values : List String
  validity : List Bool
  cap : Nat
  valuesCap : Nat
deriving DecidableEq, Repr

/-- Mutable binary builder (`MutableBinaryArray<O>`), abstracted to its row
payloads; `valuesCap` records reserved payload bytes. -/
structure MutableBinaryArray where
  values : List (List Nat)
  validity : List Bool
  cap : Nat
  valuesCap : Nat
deriving DecidableEq, Repr

/-- Mutable list builder (`MutableListArray<O, M>`): an inner child builder,
the offsets buffer (always starting at 0) and the outer validity. -/
structure MutableListArray (β : Type) where
  values : β
  offsets : List Nat
  validity : List Bool
deriving DecidableEq, Repr

/-- The builder type (`ArrowSerialize::MutableArrayType`) of each logical
type; the optional wrapper reuses the wrapped builder. -/
@[reducible] def Ty.Builder : Ty → Type
  | .prim _ => MutablePrimitiveArray
  | .boolean => MutableBooleanArray
  | .str => MutableUtf8Array
  | .largeStr => MutableUtf8Array
  | .binary => MutableBinaryArray
  | .largeBinary => MutableBinaryArray
  | .date => MutablePrimitiveArray
  | .timestamp => MutablePrimitiveArray
  | .option t => t.Builder
  | .vec t => MutableListArray t.Builder
  | .largeVec t => MutableListArray t.Builder

/-- Total UTF-8 payload bytes held by a string builder. -/
def utf8BytesLen (vs : List String) : Nat := (vs.map String.utf8ByteSize).sum

/-- Total payload bytes held by a binary builder. -/
def binBytesLen (vs : List (List Nat)) : Nat := (vs.map List.length).sum

/-- `ArrowSerialize::new_array`: the default (empty) builder; list builders
start with offsets `[0]` and wrap a fresh child builder
(`new_with_field` with the `"item"` field). -/
def new_array : (t : Ty) → t.Builder
  | .prim _ => ⟨[], [], 0⟩
  | .boolean => ⟨[], [], 0⟩
  | .str => ⟨[], [], 0, 0⟩
  | .largeStr => ⟨[], [], 0, 0⟩
  | .binary => ⟨[], [], 0, 0⟩
  | .largeBinary => ⟨[], [], 0, 0⟩
  | .date => ⟨[], [], 0⟩
  | .timestamp => ⟨[], [], 0⟩
  | .option t => new_array t
  | .vec t => ⟨new_array t, [0], []⟩
  | .largeVec t => ⟨new_array t, [0], []⟩

/-- `MutableArray::len` of a builder. -/
def builderLen : (t : Ty) → t.Builder → Nat
  | .prim _, b => b.values.length
  | .boolean, b => b.values.length
  | .str, b => b.values.length
  | .largeStr, b => b.values.length
  | .binary, b => b.values.length
  | .largeBinary, b => b.values.length
  | .date, b => b.values.length
  | .timestamp, b => b.values.length
  | .option t, b => builderLen t b
  | .vec _, b => b.offsets.length - 1
  | .largeVec _, b => b.offsets.length - 1

/-- The validity bitmap of a builder, as a list (true = valid slot). -/
def builderValidity : (t : Ty) → t.Builder → List Bool
  | .prim _, b => b.validity
  | .boolean, b => b.validity
  | .str, b => b.validity
  | .largeStr, b => b.validity
  | .binary, b => b.validity
  | .largeBinary, b => b.validity
  | .date, b => b.validity
  | .timestamp, b => b.validity
  | .option t, b => builderValidity t b
  | .vec _, b => b.validity
  | .largeVec _, b => b.validity

/-- `MutableArray::push_null`: append one invalid slot. Fixed-width builders
store the default value, variable-length builders an empty payload, list
builders duplicate the last offset; all append `false` to the validity. -/
def push_null : (t : Ty) → t.Builder → t.Builder
  | .prim _, b => ⟨b.values ++ [0], b.validity ++ [false], b.cap⟩
  | .boolean, b => ⟨b.values ++ [false], b.validity ++ [false], b.cap⟩
  | .str, b => ⟨b.values ++ [""], b.validity ++ [false], b.cap, b.valuesCap⟩
  | .largeStr, b => ⟨b.values ++ [""], b.validity ++ [false], b.cap, b.valuesCap⟩
  | .binary, b => ⟨b.values ++ [[]], b.validity ++ [false], b.cap, b.valuesCap⟩
  | .largeBinary, b => ⟨b.values ++ [[]], b.validity ++ [false], b.cap, b.valuesCap⟩
  | .date, b => ⟨b.values ++ [0], b.validity ++ [false], b.cap⟩
  | .timestamp, b => ⟨b.values ++ [0], b.validity ++ [false], b.cap⟩
  | .option t, b => push_null t b
  | .vec _, b => ⟨b.values, b.offsets ++ [b.offsets.getLastD 0], b.validity ++ [false]⟩
  | .largeVec _, b => ⟨b.values, b.offsets ++ [b.offsets.getLastD 0], b.validity ++ [false]⟩

/-- The `ArrowMutableArray::reserve(additional, additional_values)` trait
method, per implementation: `impl_mutable_array_body!` forwards only the
element count (primitives, booleans, and both binary builders), the UTF-8
implementations forward both the element count and the payload byte hint,
and the list implementations are a no-op. The optional wrapper reuses the
wrapped builder type, hence the wrapped implementation. -/
def reserve : (t : Ty) → t.Builder → Nat → Nat → t.Builder
  | .prim _, b, n, _ => { b with cap := max b.cap (b.values.length + n) }
  | .boolean, b, n, _ => { b with cap := max b.cap (b.values.length + n) }
  | .str, b, n, k =>
      { b with cap := max b.cap (b.values.length + n),
               valuesCap := max b.valuesCap (utf8BytesLen b.values + k) }
  | .largeStr, b, n, k =>
      { b with cap := max b.cap (b.values.length + n),
               valuesCap := max b.valuesCap (utf8BytesLen b.values + k) }
  | .binary, b, n, _ => { b with cap := max b.cap (b.values.length + n) }
  | .largeBinary, b, n, _ => { b with cap := max b.cap (b.values.length + n) }
  | .date, b, n, _ => { b with cap := max b.cap (b.values.length + n) }
  | .timestamp, b, n, _ => { b with cap := max b.cap (b.values.length + n) }
  | .option t, b, n, k => reserve t b n k
  | .vec _, b, _, _ => b
  | .largeVec _, b, _, _ => b

/-- Generic early-exit fold threading an `Except`: the `for` loop of
`arrow_serialize_extend_internal` and of `Vec<T>::arrow_serialize`. -/
def serFold {α β : Type} (ser : α → β → Except ArrowError β) :
    List α → β → Except ArrowError β
  | [], b => .ok b
  | x :: r, b =>
    match ser x b with
    | .error e => .error e
    | .ok b1 => serFold ser r b1

/-- `ArrowSerialize::arrow_serialize`: push one native value onto the
builder. Numeric, boolean, date and timestamp pushes cannot fail;
variable-length pushes fail with an overflow error when the payload no
longer fits the offset width; `Option` pushes a null or delegates;
`Vec`/`LargeVec` first pushes every child element into the inner builder in
order, then pushes one valid row terminator via `try_push_valid`. -/
def arrow_serialize : (t : Ty) → t.Native → t.Builder → Except ArrowError t.Builder
  | .prim _, v, b => .ok ⟨b.values ++ [(v : Int)], b.validity ++ [true], b.cap⟩
  | .boolean, v, b => .ok ⟨b.values ++ [(v : Bool)], b.validity ++ [true], b.cap⟩
  | .str, v, b =>
      if utf8BytesLen b.values + String.utf8ByteSize v ≤ OffTag.maxOffset .o32 then
        .ok ⟨b.values ++ [(v : String)], b.validity ++ [true], b.cap, b.valuesCap⟩
      else .error .overflow
  | .largeStr, v, b =>
      if utf8BytesLen b.values + String.utf8ByteSize v ≤ OffTag.maxOffset .o64 then
        .ok ⟨b.values ++ [(v : String)], b.validity ++ [true], b.cap, b.valuesCap⟩
      else .error .overflow
  | .binary, v, b =>
      if binBytesLen b.values + List.length (α := Nat) v ≤ OffTag.maxOffset .o32 then
        .ok ⟨b.values ++ [(v : List Nat)], b.validity ++ [true], b.cap, b.valuesCap⟩
      else .error .overflow
  | .largeBinary, v, b =>
      if binBytesLen b.values + List.length (α := Nat) v ≤ OffTag.maxOffset .o64 then
        .ok ⟨b.values ++ [(v : List Nat)], b.validity ++ [true], b.cap, b.valuesCap⟩
      else .error .overflow
  | .date, v, b =>
      .ok ⟨b.values ++ [v.num_days_from_ce - EPOCH_DAYS_FROM_CE],
           b.validity ++ [true], b.cap⟩
  | .timestamp, v, b =>
      .ok ⟨b.values ++ [v.timestamp_nanos], b.validity ++ [true], b.cap⟩
  | .option t, v, b =>
      match v with
      | some x => arrow_serialize t x b
      | none => .ok (push_null t b)
  | .vec t, v, b =>
      match serFold (fun x c => arrow_serialize t x c) v b.values with
      | .error e => .error e
      | .ok c =>
          if builderLen t c ≤ OffTag.maxOffset .o32 then
            .ok ⟨c, b.offsets ++ [builderLen t c], b.validity ++ [true]⟩
          else .error .overflow
  | .largeVec t, v, b =>
      match serFold (fun x c => arrow_serialize t x c) v b.values with
      | .error e => .error e
      | .ok c =>
          if builderLen t c ≤ OffTag.maxOffset .o64 then
            .ok ⟨c, b.offsets ++ [builderLen t c], b.validity ++ [true]⟩
          else .error .overflow

/-- Generic `arrow_serialize_extend_internal` (the source function is
generic over the serialized type): reserve using the size hint, then push
every element, aborting on the first error. -/
def arrow_serialize_extend_internalG {α β : Type} (res : β → Nat → Nat → β)
    (ser : α → β → Except ArrowError β) (xs : List α) (b : β) :
    Except ArrowError β :=
  serFold ser xs (res b xs.length 0)

/-- Generic `arrow_serialize_internal`: build a fresh builder and extend it. -/
def arrow_serialize_internalG {α β : Type} (new : β) (res : β → Nat → Nat → β)
    (ser : α → β → Except ArrowError β) (xs : List α) : Except ArrowError β :=
  arrow_serialize_extend_internalG res ser xs new

/-- `arrow_serialize_extend_internal` instantiated at a logical type. -/
def arrow_serialize_extend_internal (t : Ty) (xs : List t.Native) (b : t.Builder) :
    Except ArrowError t.Builder :=
  arrow_serialize_extend_internalG (reserve t) (arrow_serialize t) xs b

/-- `arrow_serialize_internal` instantiated at a logical type. -/
def arrow_serialize_internal (t : Ty) (xs : List t.Native) :
    Except ArrowError t.Builder :=
  arrow_serialize_internalG (new_array t) (reserve t) (arrow_serialize t) xs

/-- Finalize a builder into its physical array (`MutableArray::as_arc`,
keeping only the payload; the data type is attached by `finalize`). -/
def finalizePhys : (t : Ty) → t.Builder → PhysArray
  | .prim p, b => .prim p.physTag b.values b.validity
  | .boolean, b => .boolA b.values b.validity
  | .str, b => .utf8A .o32 b.values b.validity
  | .largeStr, b => .utf8A .o64 b.values b.validity
  | .binary, b => .binA .o32 b.values b.validity
  | .largeBinary, b => .binA .o64 b.values b.validity
  | .date, b => .prim .pI32 b.values b.validity
  | .timestamp, b => .prim .pI64 b.values b.validity
  | .option t, b => finalizePhys t b
  | .vec t, b => .listA .o32 b.offsets t.dataType (finalizePhys t b.values) b.validity
  | .largeVec t, b => .listA .o64 b.offsets t.dataType (finalizePhys t b.values) b.validity

/-- Finalize a builder into a type-erased immutable array. A builder
constructed through `new_array t` records exactly the data type of `t`
(`new_array` passes the field metadata for list and temporal builders), so
the finalized array carries `t.dataType`. -/
def finalize (t : Ty) (b : t.Builder) : AnyArray :=
  ⟨t.dataType, finalizePhys t b⟩

/-- `IntoArrow::into_arrow`: the top-level bulk encode entry point. -/
def into_arrow (t : Ty) (xs : List t.Native) : Except ArrowError AnyArray :=
  (arrow_serialize_internal t xs).map (finalize t)

/-- `IntoArrow::into_arrow_as_type`: bulk encode forcing the capability pair
of `fieldT` on values whose native type agrees with it. -/
def into_arrow_as_type (fieldT : Ty) (xs : List fieldT.Native) :
    Except ArrowError AnyArray :=
  (arrow_serialize_internal fieldT xs).map (finalize fieldT)

/-- Zip values with a validity bitmap into iterator items
(arrow2 `ZipValidity`): a valid slot yields `some`, an invalid slot `none`. -/
def zipValidity {γ : Type} (vs : List γ) (vl : List Bool) : List (Option γ) :=
  List.zipWith (fun v b => if b then some v else none) vs vl

/-- Consecutive (start, length) windows described by an offset buffer. -/
def offsetWindows : List Nat → List (Nat × Nat)
  | a :: b :: r => (a, b - a) :: offsetWindows (b :: r)
  | _ => []

/-- Zero-copy slice of a physical array (`Array::slice`): fixed-width and
variable-length arrays restrict their rows; a list array restricts its
offset window and validity but keeps the whole child with absolute offsets. -/
def PhysArray.slice : PhysArray → Nat → Nat → PhysArray
  | .prim tag vs vl, off, len =>
      .prim tag ((vs.drop off).take len) ((vl.drop off).take len)
  | .boolA vs vl, off, len =>
      .boolA ((vs.drop off).take len) ((vl.drop off).take len)
  | .utf8A o vs vl, off, len =>
      .utf8A o ((vs.drop off).take len) ((vl.drop off).take len)
  | .binA o vs vl, off, len =>
      .binA o ((vs.drop off).take len) ((vl.drop off).take len)
  | .listA o offs cdt c vl, off, len =>
      .listA o ((offs.drop off).take (len + 1)) cdt c ((vl.drop off).take len)

/-- `ArrowArray::iter_from_array_ref`: downcast the type-erased array to the
concrete physical layout expected by the logical type and iterate it.
The downcast keys on the physical layout only, never on the recorded
logical data type; a failed downcast is an `unwrap` panic, modelled as
`none`. One row of a list array is the corresponding slice of its child,
paired with the recorded child data type. -/
def iter_from_array_ref : (t : Ty) → AnyArray → Option (List (Option t.ItemVal))
  | .prim p, a =>
      match a.phys with
      | .prim tag vs vl => if tag = p.physTag then some (zipValidity vs vl) else none
      | _ => none
  | .boolean, a =>
      match a.phys with
      | .boolA vs vl => some (zipValidity vs vl)
      | _ => none
  | .str, a =>
      match a.phys with
      | .utf8A .o32 vs vl => some (zipValidity vs vl)
      | _ => none
  | .largeStr, a =>
      match a.phys with
      | .utf8A .o64 vs vl => some (zipValidity vs vl)
      | _ => none
  | .binary, a =>
      match a.phys with
      | .binA .o32 vs vl => some (zipValidity vs vl)
      | _ => none
  | .largeBinary, a =>
      match a.phys with
      | .binA .o64 vs vl => some (zipValidity vs vl)
      | _ => none
  | .date, a =>
      match a.phys with
      | .prim .pI32 vs vl => some (zipValidity vs vl)
      | _ => none
  | .timestamp, a =>
      match a.phys with
      | .prim .pI64 vs vl => some (zipValidity vs vl)
      | _ => none
  | .option t, a => iter_from_array_ref t a
  | .vec _, a =>
      match a.phys with
      | .listA .o32 offs cdt c vl =>
          some (zipValidity
            ((offsetWindows offs).map (fun w => AnyArray.mk cdt (c.slice w.1 w.2))) vl)
      | _ => none
  | .largeVec _, a =>
      match a.phys with
      | .listA .o64 offs cdt c vl =>
          some (zipValidity
            ((offsetWindows offs).map (fun w => AnyArray.mk cdt (c.slice w.1 w.2))) vl)
      | _ => none

/-- Sequence a partial function over a list (collecting an iterator whose
element decoding may panic): `none` as soon as one element is `none`. -/
def mapO {α β : Type} (f : α → Option β) : List α → Option (List β)
  | [] => some []
  | x :: r =>
    match f x with
    | none => none
    | some y => (mapO f r).map (y :: ·)

/-- `ArrowDeserialize::arrow_deserialize`: convert one iterator item
(`none` = invalid slot) into `Option` of the native value. The outer
`Option` layer models panics: scalar conversions never panic, but decoding
a present list row pulls a whole nested iterator, whose downcast or element
`unwrap` can panic. For `Option<T>` the implementation returns
`Some(Self::arrow_deserialize_internal(v))`, i.e. `some` of the wrapped
decode. A present list row maps `T::arrow_deserialize_internal` over the
nested iterator; that function is written here in its uniform
`(arrow_deserialize t w).bind id` form, which coincides with every
implementation of `arrow_deserialize_internal` including the `Option<T>`
override (theorem `internal_eq_bind` below), keeping the recursion
structural. -/
def arrow_deserialize : (t : Ty) → Option t.ItemVal → Option (Option t.Native)
  | .prim _, v => some v
  | .boolean, v => some v
  | .str, v => some v
  | .largeStr, v => some v
  | .binary, v => some v
  | .largeBinary, v => some v
  | .date, v => some (v.map date32_to_date)
  | .timestamp, v => some (v.map timestamp_ns_to_datetime)
  | .option t, v => (arrow_deserialize t v).map some
  | .vec t, v =>
      match v with
      | none => some none
      | some sub =>
          match iter_from_array_ref t sub with
          | none => none
          | some items =>
              (mapO (fun w => (arrow_deserialize t w).bind id) items).map some
  | .largeVec t, v =>
      match v with
      | none => some none
      | some sub =>
          match iter_from_array_ref t sub with
          | none => none
          | some items =>
              (mapO (fun w => (arrow_deserialize t w).bind id) items).map some

/-- `ArrowDeserialize::arrow_deserialize_internal`: the non-optional decode
entry point mapped over the iterator. The default implementation is
`Self::arrow_deserialize(v).unwrap()` (the `unwrap` panic is the outer
`none`); the `Option<T>` implementation overrides it to delegate to
`T::arrow_deserialize` without re-testing presence. -/
def arrow_deserialize_internal : (t : Ty) → Option t.ItemVal → Option t.Native
  | .option s, v => arrow_deserialize s v
  | .prim p, v => (arrow_deserialize (.prim p) v).bind id
  | .boolean, v => (arrow_deserialize .boolean v).bind id
  | .str, v => (arrow_deserialize .str v).bind id
  | .largeStr, v => (arrow_deserialize .largeStr v).bind id
  | .binary, v => (arrow_deserialize .binary v).bind id
  | .largeBinary, v => (arrow_deserialize .largeBinary v).bind id
  | .date, v => (arrow_deserialize .date v).bind id
  | .timestamp, v => (arrow_deserialize .timestamp v).bind id
  | .vec s, v => (arrow_deserialize (.vec s) v).bind id
  | .largeVec s, v => (arrow_deserialize (.largeVec s) v).bind id

/-- `arrow_array_deserialize_iterator_internal`, pulled to completion: the
downcast iterator mapped through `arrow_deserialize_internal`. The Rust
function itself always returns `Ok`; `none` here models a panic (failed
downcast, or `unwrap` of a missing value at a non-nullable type) while
constructing or consuming the iterator. -/
def arrow_array_deserialize_iterator_internal (t : Ty) (a : AnyArray) :
    Option (List t.Native) :=
  (iter_from_array_ref t a).bind (mapO (arrow_deserialize_internal t))

/-- `arrow_array_deserialize_iterator_as_type`: the top-level decode entry
point. It first compares the requested data type with the data type
recorded on the array and fails with `InvalidArgumentError` on mismatch,
before constructing the iterator; on match it returns the internal
iterator (whose consumption is modelled pulled to completion). -/
def arrow_array_deserialize_iterator_as_type (t : Ty) (a : AnyArray) :
    Except ArrowError (Option (List t.Native)) :=
  if t.dataType ≠ a.dataType then
    .error (.invalidArgumentError "Data type mismatch")
  else
    .ok (arrow_array_deserialize_iterator_internal t a)

/-- `arrow_array_deserialize_iterator`: decode using the native type of the
elements themselves. -/
def arrow_array_deserialize_iterator (t : Ty) (a : AnyArray) :
    Except ArrowError (Option (List t.Native)) :=
  arrow_array_deserialize_iterator_as_type t a

/-- `TryIntoIter::try_into_iter`: the top-level decode-and-collect entry
point. -/
def try_into_iter (t : Ty) (a : AnyArray) :
    Except ArrowError (Option (List t.Native)) :=
  arrow_array_deserialize_iterator t a

/-- `TryIntoIter::try_into_iter_as_type`: decode-and-collect forcing the
capability pair of `fieldT`. -/
def try_into_iter_as_type (fieldT : Ty) (a : AnyArray) :
    Except ArrowError (Option (List fieldT.Native)) :=
  arrow_array_deserialize_iterator_as_type fieldT a

/-- Offsets are nondecreasing. -/
def offsetsMono : List Nat → Bool
  | a :: b :: r => decide (a ≤ b) && offsetsMono (b :: r)
  | _ => true

/-- Structural well-formedness of a physical array, as enforced by the
arrow2 array constructors: validity length matches the row count, list
offsets are nonempty, nondecreasing and end within the child. -/
def PhysArray.structWF : PhysArray → Bool
  | .prim _ vs vl => vs.length == vl.length
  | .boolA vs vl => vs.length == vl.length
  | .utf8A _ vs vl => vs.length == vl.length
  | .binA _ vs vl => vs.length == vl.length
  | .listA _ offs _ c vl =>
      (offs.length == vl.length + 1) && offsetsMono offs &&
        (offs.getLastD 0 ≤ c.len) && c.structWF

/-- Compatibility between a recorded logical data type and a physical
layout, as enforced by the arrow2 array constructors (`PrimitiveArray`,
`Utf8Array`, `ListArray::new` check the data type against the physical
type, and a list field data type against the child data type). -/
def dtypePhysCompat : DataType → PhysArray → Bool
  | .uint8, .prim .pU8 _ _ => true
  | .uint16, .prim .pU16 _ _ => true
  | .uint32, .prim .pU32 _ _ => true
  | .uint64, .prim .pU64 _ _ => true
  | .int8, .prim .pI8 _ _ => true
  | .int16, .prim .pI16 _ _ => true
  | .int32, .prim .pI32 _ _ => true
  | .int64, .prim .pI64 _ _ => true
  | .float32, .prim .pF32 _ _ => true
  | .float64, .prim .pF64 _ _ => true
  | .date32, .prim .pI32 _ _ => true
  | .timestamp _ _, .prim .pI64 _ _ => true
  | .boolean, .boolA _ _ => true
  | .utf8, .utf8A .o32 _ _ => true
  | .largeUtf8, .utf8A .o64 _ _ => true
  | .binary, .binA .o32 _ _ => true
  | .largeBinary, .binA .o64 _ _ => true
  | .list _ item _, .listA .o32 _ cdt c _ => item == cdt && dtypePhysCompat cdt c
  | .largeList _ item _, .listA .o64 _ cdt c _ => item == cdt && dtypePhysCompat cdt c
  | _, _ => false

/-- A well-formed type-erased array: structurally sound physical payload
whose recorded data type is compatible with its layout. -/
def AnyArray.wf (a : AnyArray) : Bool :=
  dtypePhysCompat a.dataType a.phys && a.phys.structWF

/-- Builder invariant maintained by `new_array` and every successful push:
validity length matches the row payload, list offsets are nonempty,
nondecreasing, one longer than the validity and end exactly at the child
builder length. -/
def bInv : (t : Ty) → t.Builder → Bool
  | .prim _, b => b.values.length == b.validity.length
  | .boolean, b => b.values.length == b.validity.length
  | .str, b => b.values.length == b.validity.length
  | .largeStr, b => b.values.length == b.validity.length
  | .binary, b => b.values.length == b.validity.length
  | .largeBinary, b => b.values.length == b.validity.length
  | .date, b => b.values.length == b.validity.length
  | .timestamp, b => b.values.length == b.validity.length
  | .option t, b => bInv t b
  | .vec t, b =>
      !b.offsets.isEmpty && (b.offsets.length == b.validity.length + 1) &&
        offsetsMono b.offsets && (b.offsets.getLastD 0 == builderLen t b.values) &&
        bInv t b.values
  | .largeVec t, b =>
      !b.offsets.isEmpty && (b.offsets.length == b.validity.length + 1) &&
        offsetsMono b.offsets && (b.offsets.getLastD 0 == builderLen t b.values) &&
        bInv t b.values

/-- The iterator items that the finalized array of a builder yields: the
rows of the builder viewed through `iter_from_array_ref`. -/
def builderItems : (t : Ty) → t.Builder → List (Option t.ItemVal)
  | .prim _, b => zipValidity b.values b.validity
  | .boolean, b => zipValidity b.values b.validity
  | .str, b => zipValidity b.values b.validity
  | .largeStr, b => zipValidity b.values b.validity
  | .binary, b => zipValidity b.values b.validity
  | .largeBinary, b => zipValidity b.values b.validity
  | .date, b => zipValidity b.values b.validity
  | .timestamp, b => zipValidity b.values b.validity
  | .option t, b => builderItems t b
  | .vec t, b =>
      zipValidity
        ((offsetWindows b.offsets).map
          (fun w => AnyArray.mk t.dataType ((finalizePhys t b.values).slice w.1 w.2)))
        b.validity
  | .largeVec t, b =>
      zipValidity
        ((offsetWindows b.offsets).map
          (fun w => AnyArray.mk t.dataType ((finalizePhys t b.values).slice w.1 w.2)))
        b.validity

/-- Raw per-row decode of every row a builder holds:
`arrow_deserialize` applied to each iterator item. -/
def itemsDec (t : Ty) (b : t.Builder) : List (Option (Option t.Native)) :=
  (builderItems t b).map (arrow_deserialize t)

/-! ### List-level helper lemmas -/

theorem zipValidity_length {γ : Type} (vs : List γ) (vl : List Bool) :
    (zipValidity vs vl).length = min vs.length vl.length :=
  List.length_zipWith _ _ _

theorem zipValidity_append {γ : Type} (vs vs2 : List γ) (vl vl2 : List Bool)
    (h : vs.length = vl.length) :
    zipValidity (vs ++ vs2) (vl ++ vl2) = zipValidity vs vl ++ zipValidity vs2 vl2 :=
  List.zipWith_append _ _ _ _ _ h

theorem zipValidity_take {γ : Type} (vs : List γ) (vl : List Bool) (n : Nat) :
    zipValidity (vs.take n) (vl.take n) = (zipValidity vs vl).take n :=
  (List.take_zipWith ..).symm

theorem zipValidity_drop {γ : Type} (vs : List γ) (vl : List Bool) (n : Nat) :
    zipValidity (vs.drop n) (vl.drop n) = (zipValidity vs vl).drop n :=
  (List.drop_zipWith ..).symm

theorem getLastD_irrel (b : Nat) (r : List Nat) (d d2 : Nat) :
    (b :: r).getLastD d = (b :: r).getLastD d2 := by
  rw [List.getLastD_cons, List.getLastD_cons]

theorem offsetWindows_length : ∀ l : List Nat, (offsetWindows l).length = l.length - 1
  | [] => rfl
  | [_] => rfl
  | _ :: b :: r => by
      have := offsetWindows_length (b :: r)
      simp only [offsetWindows, List.length_cons] at *
      omega

theorem offsetWindows_drop : ∀ (l : List Nat) (k : Nat),
    offsetWindows (l.drop k) = (offsetWindows l).drop k
  | _, 0 => by simp
  | [], _ + 1 => by simp [offsetWindows]
  | [_], _ + 1 => by simp [offsetWindows]
  | _ :: b :: r, k + 1 => by
      simpa [offsetWindows] using offsetWindows_drop (b :: r) k

theorem offsetWindows_take : ∀ (l : List Nat) (k : Nat),
    offsetWindows (l.take (k + 1)) = (offsetWindows l).take k
  | [], _ => by simp [offsetWindows]
  | [_], _ => by simp [offsetWindows]
  | _ :: _ :: _, 0 => by simp [offsetWindows]
  | _ :: b :: r, k + 1 => by
      have h2 := offsetWindows_take (b :: r) k
      simp only [List.take_succ_cons] at h2 ⊢
      simp [offsetWindows, h2]

theorem offsetWindows_append_last : ∀ (l : List Nat) (n : Nat), l ≠ [] →
    offsetWindows (l ++ [n]) = offsetWindows l ++ [(l.getLastD 0, n - l.getLastD 0)]
  | [a], n, _ => by simp [offsetWindows]
  | a :: b :: r, n, _ => by
      have h2 := offsetWindows_append_last (b :: r) n (by simp)
      simp only [List.cons_append] at h2
      simp [offsetWindows, List.cons_append, h2, List.getLastD_cons]
  | [], _, h => absurd rfl h

theorem offsetsMono_append_last : ∀ (l : List Nat) (n : Nat),
    offsetsMono l = true → l.getLastD 0 ≤ n → offsetsMono (l ++ [n]) = true
  | [], _, _, _ => by simp [offsetsMono]
  | [a], n, _, hle => by
      have ha : [a].getLastD 0 = a := rfl
      rw [ha] at hle
      simp [offsetsMono, hle]
  | a :: b :: r, n, hm, hle => by
      simp only [offsetsMono, Bool.and_eq_true, decide_eq_true_eq] at hm
      have hle2 : (b :: r).getLastD 0 ≤ n := by
        rw [List.getLastD_cons, getLastD_irrel b r a 0] at hle
        exact hle
      have h3 := offsetsMono_append_last (b :: r) n hm.2 hle2
      simp only [List.cons_append] at h3 ⊢
      simp [offsetsMono, hm.1, h3]

theorem offsetsMono_head_le_last : ∀ (x : Nat) (l : List Nat),
    offsetsMono (x :: l) = true → x ≤ (x :: l).getLastD 0
  | _, [], _ => le_refl _
  | x, y :: r, hm => by
      simp only [offsetsMono, Bool.and_eq_true, decide_eq_true_eq] at hm
      have := offsetsMono_head_le_last y r hm.2
      rw [List.getLastD_cons, getLastD_irrel y r x 0]
      exact le_trans hm.1 this

theorem offsetWindows_bound : ∀ (l : List Nat), offsetsMono l = true →
    ∀ w ∈ offsetWindows l, w.1 + w.2 ≤ l.getLastD 0
  | [], _, _, hw => by simp [offsetWindows] at hw
  | [_], _, _, hw => by simp [offsetWindows] at hw
  | a :: b :: r, hm, w, hw => by
      simp only [offsetsMono, Bool.and_eq_true, decide_eq_true_eq] at hm
      simp only [offsetWindows, List.mem_cons] at hw
      rw [List.getLastD_cons, getLastD_irrel b r a 0]
      rcases hw with h | h
      · subst h
        have hb : b ≤ (b :: r).getLastD 0 := offsetsMono_head_le_last b r hm.2
        simp only
        omega
      · exact offsetWindows_bound (b :: r) hm.2 w h

theorem mapO_congr {α β : Type} (f g : α → Option β) : ∀ (l : List α),
    (∀ a ∈ l, f a = g a) → mapO f l = mapO g l
  | [], _ => rfl
  | x :: r, h => by
      have hx := h x (by simp)
      have hr := mapO_congr f g r (fun a ha => h a (by simp [ha]))
      simp [mapO, hx, hr]

theorem mapO_append_some {α β : Type} (f : α → Option β) :
    ∀ (l1 l2 : List α) (xs : List β), mapO f l1 = some xs →
      mapO f (l1 ++ l2) = (mapO f l2).map (xs ++ ·)
  | [], l2, xs, h => by
      simp only [mapO, Option.some.injEq] at h
      subst h
      simp only [List.nil_append]
      cases mapO f l2 <;> rfl
  | x :: r, l2, xs, h => by
      simp only [mapO] at h ⊢
      cases hfx : f x with
      | none => rw [hfx] at h; exact absurd h (by simp)
      | some y =>
          rw [hfx] at h
          cases hr : mapO f r with
          | none => rw [hr] at h; exact absurd h (by simp)
          | some rs =>
              rw [hr] at h
              simp only [Option.map_some', Option.some.injEq] at h
              subst h
              have h4 := mapO_append_some f r l2 rs hr
              simp only [List.cons_append, hfx, h4]
              cases hl2 : mapO f l2 <;> simp [h4, hl2]

theorem mapO_length {α β : Type} (f : α → Option β) :
    ∀ (l : List α) (ys : List β), mapO f l = some ys → ys.length = l.length
  | [], ys, h => by
      simp only [mapO, Option.some.injEq] at h
      subst h
      rfl
  | x :: r, ys, h => by
      simp only [mapO] at h
      cases hfx : f x with
      | none => rw [hfx] at h; exact absurd h (by simp)
      | some y =>
          rw [hfx] at h
          cases hr : mapO f r with
          | none => rw [hr] at h; exact absurd h (by simp)
          | some rs =>
              rw [hr] at h
              simp only [Option.map_some', Option.some.injEq] at h
              subst h
              have h4 := mapO_length f r rs hr
              simp [h4]

theorem mapO_raw_congr {α1 α2 γ β : Type} (raw1 : α1 → γ) (raw2 : α2 → γ) (k : γ → Option β) :
    ∀ (l1 : List α1) (l2 : List α2), l1.map raw1 = l2.map raw2 →
      mapO (fun a => k (raw1 a)) l1 = mapO (fun a => k (raw2 a)) l2
  | [], [], _ => rfl
  | [], _ :: _, h => by simp at h
  | _ :: _, [], h => by simp at h
  | x :: r, y :: s, h => by
      simp only [List.map_cons, List.cons.injEq] at h
      have := mapO_raw_congr raw1 raw2 k r s h.2
      simp [mapO, h.1, this]

theorem mapO_bindid_allsome {α β : Type} (raw : α → Option (Option β)) :
    ∀ (l : List α) (vs : List β), l.map raw = vs.map (fun v => some (some v)) →
      mapO (fun a => (raw a).bind id) l = some vs
  | [], [], _ => rfl
  | [], _ :: _, h => by simp at h
  | _ :: _, [], h => by simp at h
  | x :: r, v :: vs, h => by
      simp only [List.map_cons, List.cons.injEq] at h
      have h4 := mapO_bindid_allsome raw r vs h.2
      have hx : ((raw x).bind id) = some v := by rw [h.1]; rfl
      simp only [mapO, hx]
      rw [h4]
      rfl

theorem serFold_append_ok {α β : Type} (ser : α → β → Except ArrowError β) :
    ∀ (l1 l2 : List α) (b b1 : β), serFold ser l1 b = .ok b1 →
      serFold ser (l1 ++ l2) b = serFold ser l2 b1
  | [], _, b, b1, h => by
      simp only [serFold] at h
      cases h
      rfl
  | x :: r, l2, b, b1, h => by
      simp only [serFold] at h ⊢
      cases hx : ser x b with
      | error e => rw [hx] at h; exact absurd h (by simp)
      | ok c => rw [hx] at h; exact serFold_append_ok ser r l2 c b1 h

theorem serFold_append_error {α β : Type} (ser : α → β → Except ArrowError β) :
    ∀ (l1 l2 : List α) (b : β) (e : ArrowError), serFold ser l1 b = .error e →
      serFold ser (l1 ++ l2) b = .error e
  | [], _, _, _, h => by simp [serFold] at h
  | x :: r, l2, b, e, h => by
      simp only [serFold] at h ⊢
      cases hx : ser x b with
      | error e2 => rw [hx] at h; cases h; rfl
      | ok c => rw [hx] at h; exact serFold_append_error ser r l2 c e h

/-! ### Basic facts about the deserialize capabilities -/

theorem internal_eq_bind (t : Ty) (v : Option t.ItemVal) :
    arrow_deserialize_internal t v = (arrow_deserialize t v).bind id := by
  cases t with
  | option s =>
      show arrow_deserialize s v = ((arrow_deserialize s v).map some).bind id
      cases arrow_deserialize s v <;> rfl
  | prim p => rfl
  | boolean => rfl
  | str => rfl
  | largeStr => rfl
  | binary => rfl
  | largeBinary => rfl
  | date => rfl
  | timestamp => rfl
  | vec s => rfl
  | largeVec s => rfl

theorem vec_des_eq (t : Ty) (sub : AnyArray) :
    arrow_deserialize (.vec t) (some sub) =
      (arrow_array_deserialize_iterator_internal t sub).map some := by
  cases hi : iter_from_array_ref t sub with
  | none => simp [arrow_deserialize, arrow_array_deserialize_iterator_internal, hi]
  | some items =>
      simp only [arrow_deserialize, arrow_array_deserialize_iterator_internal, hi,
        Option.some_bind]
      congr 1
      apply mapO_congr
      intro w _
      exact (internal_eq_bind t w).symm

theorem largeVec_des_eq (t : Ty) (sub : AnyArray) :
    arrow_deserialize (.largeVec t) (some sub) =
      (arrow_array_deserialize_iterator_internal t sub).map some := by
  cases hi : iter_from_array_ref t sub with
  | none => simp [arrow_deserialize, arrow_array_deserialize_iterator_internal, hi]
  | some items =>
      simp only [arrow_deserialize, arrow_array_deserialize_iterator_internal, hi,
        Option.some_bind]
      congr 1
      apply mapO_congr
      intro w _
      exact (internal_eq_bind t w).symm

theorem des_none (t : Ty) (h : t.notOption = true) :
    arrow_deserialize t none = some none := by
  cases t <;> first | rfl | simp [Ty.notOption] at h

theorem des_some_ne_none (t : Ty) (h : t.notOption = true) (x : t.ItemVal) :
    arrow_deserialize t (some x) ≠ some none := by
  cases t with
  | option s => simp [Ty.notOption] at h
  | vec s =>
      rw [vec_des_eq]
      cases arrow_array_deserialize_iterator_internal s x <;> simp
  | largeVec s =>
      rw [largeVec_des_eq]
      cases arrow_array_deserialize_iterator_internal s x <;> simp
  | prim p => simp [arrow_deserialize]
  | boolean => simp [arrow_deserialize]
  | str => simp [arrow_deserialize]
  | largeStr => simp [arrow_deserialize]
  | binary => simp [arrow_deserialize]
  | largeBinary => simp [arrow_deserialize]
  | date => simp [arrow_deserialize]
  | timestamp => simp [arrow_deserialize]

theorem internal_of_raw (t : Ty) (v : Option t.ItemVal) (x : t.Native)
    (h : arrow_deserialize t v = some (some x)) :
    arrow_deserialize_internal t v = some x := by
  rw [internal_eq_bind, h]
  rfl

theorem iter_ignores_dataType (t : Ty) (dt dt2 : DataType) (phys : PhysArray) :
    iter_from_array_ref t ⟨dt, phys⟩ = iter_from_array_ref t ⟨dt2, phys⟩ := by
  induction t <;> first | rfl | assumption

/-! ### C2: type mismatch detection -/

/-- C2 (amended): for every type-erased column and requested logical type,
if the recorded data type differs from the requested data type, the
top-level decode entry point `arrow_array_deserialize_iterator_as_type`
returns a type-mismatch error before any element of the column is read
(the result is the same for every physical payload), but the error carries
a fixed message, not the two type descriptions. -/
theorem c2_mismatch_error_before_elements (t : Ty) (dt : DataType)
    (h : t.dataType ≠ dt) (phys : PhysArray) :
    arrow_array_deserialize_iterator_as_type t ⟨dt, phys⟩ =
      .error (.invalidArgumentError "Data type mismatch") := by
  simp [arrow_array_deserialize_iterator_as_type, h]

/-- Witness for `c2_mismatch_error_before_elements` at a concrete
mismatched pair (requesting UTF-8 from an Int32 column). -/
theorem c2_mismatch_error_before_elements_witness :
    Ty.dataType .str ≠ DataType.int32 ∧
    arrow_array_deserialize_iterator_as_type .str ⟨.int32, .prim .pI32 [0] [true]⟩ =
      .error (.invalidArgumentError "Data type mismatch") :=
  ⟨by decide, c2_mismatch_error_before_elements .str .int32 (by decide) _⟩

/-- C2 counterexample: the claim says the type-mismatch error carries both
type descriptions; in the code the error is the constant message
`"Data type mismatch"`. Two decodes with entirely different
(requested, recorded) type pairs produce the identical error value, so the
error cannot carry either type description. -/
theorem c2_counterexample :
    arrow_array_deserialize_iterator_as_type .str ⟨.int32, .prim .pI32 [0] [true]⟩ =
      .error (.invalidArgumentError "Data type mismatch") ∧
    arrow_array_deserialize_iterator_as_type .boolean ⟨.largeUtf8, .utf8A .o64 [] []⟩ =
      .error (.invalidArgumentError "Data type mismatch") := by
  exact ⟨by rfl, by rfl⟩

/-! ### C5: nested-sequence decode -/

/-- C5 (amended): decoding a present physical element of a nested sequence
performs no logical-type check on the sub-column: `Vec<T>` and
`LargeVec<T>` `arrow_deserialize` delegate to the internal iterator, which
only downcasts by physical layout (panicking, not erroring, on a physical
mismatch) and collects the decoded elements into an owned sequence; the
downcast never consults the recorded data type; an absent physical element
yields an absent native value. -/
theorem c5_vec_decode_no_type_check :
    (∀ t : Ty, arrow_deserialize (.vec t) none = some none) ∧
    (∀ (t : Ty) (sub : AnyArray), arrow_deserialize (.vec t) (some sub) =
        (arrow_array_deserialize_iterator_internal t sub).map some) ∧
    (∀ t : Ty, arrow_deserialize (.largeVec t) none = some none) ∧
    (∀ (t : Ty) (sub : AnyArray), arrow_deserialize (.largeVec t) (some sub) =
        (arrow_array_deserialize_iterator_internal t sub).map some) ∧
    (∀ (t : Ty) (dt dt2 : DataType) (phys : PhysArray),
        iter_from_array_ref t ⟨dt, phys⟩ = iter_from_array_ref t ⟨dt2, phys⟩) :=
  ⟨fun _ => rfl, vec_des_eq, fun _ => rfl, largeVec_des_eq, iter_ignores_dataType⟩

/-- C5 counterexample: the claim says the sub-column logical type is
checked against `T` before producing the element sequence. Decoding a
`Vec<i32>` row whose sub-column records the logical type Date32 (distinct
from Int32, though physically layout-compatible) succeeds and produces the
elements instead of failing. -/
theorem c5_counterexample :
    Ty.dataType (.prim .i32) ≠ DataType.date32 ∧
    arrow_deserialize (.vec (.prim .i32))
        (some ⟨.date32, .prim .pI32 [5] [true]⟩) = some (some [5]) :=
  ⟨by decide, by rfl⟩

/-! ### C9: reserve behaviour per builder -/

/-- C9 (amended): the trait-level `reserve(count, byte-hint)` reserves
capacity for `count` elements on fixed-width builders (primitive, boolean,
date, timestamp); on UTF-8 builders it additionally reserves `byte-hint`
payload bytes; on byte-buffer (binary) builders the byte hint is dropped by
`impl_mutable_array_body!` and only `count` is reserved; on nested list
builders it is a complete no-op. -/
theorem c9_reserve_behaviour :
    (∀ (p : PrimTy) (b : MutablePrimitiveArray) (n k : Nat),
        reserve (.prim p) b n k = { b with cap := max b.cap (b.values.length + n) } ∧
        reserve .date b n k = { b with cap := max b.cap (b.values.length + n) } ∧
        reserve .timestamp b n k = { b with cap := max b.cap (b.values.length + n) }) ∧
    (∀ (b : MutableBooleanArray) (n k : Nat),
        reserve .boolean b n k = { b with cap := max b.cap (b.values.length + n) }) ∧
    (∀ (b : MutableUtf8Array) (n k : Nat),
        reserve .str b n k =
          { b with cap := max b.cap (b.values.length + n),
                   valuesCap := max b.valuesCap (utf8BytesLen b.values + k) } ∧
        reserve .largeStr b n k =
          { b with cap := max b.cap (b.values.length + n),
                   valuesCap := max b.valuesCap (utf8BytesLen b.values + k) }) ∧
    (∀ (b : MutableBinaryArray) (n k : Nat),
        reserve .binary b n k = { b with cap := max b.cap (b.values.length + n) } ∧
        reserve .largeBinary b n k = { b with cap := max b.cap (b.values.length + n) } ∧
        (reserve .binary b n k).valuesCap = b.valuesCap) ∧
    (∀ (t : Ty) (b : MutableListArray t.Builder) (n k : Nat),
        reserve (.vec t) b n k = b ∧ reserve (.largeVec t) b n k = b) :=
  ⟨fun _ _ _ _ => ⟨rfl, rfl, rfl⟩, fun _ _ _ => rfl, fun _ _ _ => ⟨rfl, rfl⟩,
    fun _ _ _ => ⟨rfl, rfl, rfl⟩, fun _ _ _ _ => ⟨rfl, rfl⟩⟩

/-- C9 counterexample: the claim says byte-buffer builders reserve the
byte hint; on a fresh binary builder a reserve with byte hint 7 leaves the
payload reservation at 0, while the same call on a UTF-8 builder reserves
the 7 bytes. -/
theorem c9_counterexample :
    (reserve .binary ⟨[], [], 0, 0⟩ 1 7).valuesCap = 0 ∧
    (reserve .str ⟨[], [], 0, 0⟩ 1 7).valuesCap = 7 :=
  ⟨rfl, rfl⟩

/-! ### push_null facts -/

theorem push_null_validity : ∀ (t : Ty) (b : t.Builder),
    builderValidity t (push_null t b) = builderValidity t b ++ [false]
  | .option t, b => push_null_validity t b
  | .prim _, _ => rfl
  | .boolean, _ => rfl
  | .str, _ => rfl
  | .largeStr, _ => rfl
  | .binary, _ => rfl
  | .largeBinary, _ => rfl
  | .date, _ => rfl
  | .timestamp, _ => rfl
  | .vec _, _ => rfl
  | .largeVec _, _ => rfl

theorem push_null_len : ∀ (t : Ty) (b : t.Builder), bInv t b = true →
    builderLen t (push_null t b) = builderLen t b + 1
  | .option t, b, h => push_null_len t b h
  | .prim _, b, _ => by simp [builderLen, push_null]
  | .boolean, b, _ => by simp [builderLen, push_null]
  | .str, b, _ => by simp [builderLen, push_null]
  | .largeStr, b, _ => by simp [builderLen, push_null]
  | .binary, b, _ => by simp [builderLen, push_null]
  | .largeBinary, b, _ => by simp [builderLen, push_null]
  | .date, b, _ => by simp [builderLen, push_null]
  | .timestamp, b, _ => by simp [builderLen, push_null]
  | .vec t, b, h => by
      obtain ⟨vals, offs, vl⟩ := b
      cases offs with
      | nil => simp [bInv] at h
      | cons o rest => simp [builderLen, push_null]
  | .largeVec t, b, h => by
      obtain ⟨vals, offs, vl⟩ := b
      cases offs with
      | nil => simp [bInv] at h
      | cons o rest => simp [builderLen, push_null]

/-! ### C3: optional wrapper encode/decode -/

/-- C3: serializing `None` at `Option<T>` pushes exactly one null-marked
slot onto the builder (one `false` appended to the validity, length grows
by one, never omitted) and serializing `Some(x)` delegates to the wrapped
serialize; decoding a null-marked slot through the iterator
(`arrow_deserialize_internal` at `Option<T>`) yields the native value
`None`, never a default scalar value, and decoding a valid slot yields
`Some` of the wrapped decoded value (never `None`). -/
theorem c3_option_null_slot (t : Ty) (ht : t.notOption = true) (b : t.Builder)
    (x : t.Native) (y : t.ItemVal) (hb : bInv t b = true) :
    arrow_serialize (.option t) none b = .ok (push_null t b) ∧
    builderValidity t (push_null t b) = builderValidity t b ++ [false] ∧
    builderLen t (push_null t b) = builderLen t b + 1 ∧
    arrow_serialize (.option t) (some x) b = arrow_serialize t x b ∧
    arrow_deserialize_internal (.option t) none = some none ∧
    arrow_deserialize_internal (.option t) (some y) = arrow_deserialize t (some y) ∧
    arrow_deserialize t (some y) ≠ some none :=
  ⟨rfl, push_null_validity t b, push_null_len t b hb, rfl,
    des_none t ht, rfl, des_some_ne_none t ht y⟩

/-- Witness for `c3_option_null_slot` at `Option<i32>` with an empty
builder. -/
theorem c3_option_null_slot_witness :
    arrow_deserialize_internal (.option (.prim .i32)) none = some none ∧
    arrow_deserialize (.prim .i32) (some 5) ≠ some none := by
  have h := c3_option_null_slot (.prim .i32) (by decide) ⟨[], [], 0⟩ 5 5 (by decide)
  exact ⟨h.2.2.2.2.1, h.2.2.2.2.2.2⟩

/-! ### C7: no double wrapping on optional decode -/

/-- C7: the decode iterator for `Option<T>` represents absence exactly
once: its element function `arrow_deserialize_internal` delegates to
`T::arrow_deserialize` without re-testing presence, an absent element
yields `None`, and a present element never yields the value `None` (hence
never a doubly wrapped `Some(None)`): any produced value is `Some` of the
wrapped decoded value. -/
theorem c7_no_double_wrap (t : Ty) (ht : t.notOption = true)
    (v : Option t.ItemVal) (x : t.ItemVal) :
    arrow_deserialize_internal (.option t) v = arrow_deserialize t v ∧
    arrow_deserialize_internal (.option t) none = some none ∧
    arrow_deserialize_internal (.option t) (some x) ≠ some none ∧
    (∀ w, arrow_deserialize_internal (.option t) (some x) = some w →
      ∃ y, w = some y) := by
  refine ⟨rfl, des_none t ht, ?_, ?_⟩
  · show arrow_deserialize t (some x) ≠ some none
    exact des_some_ne_none t ht x
  · intro w hw
    cases w with
    | some y => exact ⟨y, rfl⟩
    | none =>
        exact absurd (show arrow_deserialize t (some x) = some none from hw)
          (des_some_ne_none t ht x)

/-- Witness for `c7_no_double_wrap` at `Option<bool>`. -/
theorem c7_no_double_wrap_witness :
    arrow_deserialize_internal (.option .boolean) none = some none ∧
    arrow_deserialize_internal (.option .boolean) (some true) ≠ some none := by
  have h := c7_no_double_wrap .boolean (by decide) none true
  exact ⟨h.2.1, h.2.2.1⟩

/-! ### Builder invariant facts -/

theorem bInv_vec_iff (t : Ty) (vals : t.Builder) (offs : List Nat) (vl : List Bool) :
    bInv (.vec t) (⟨vals, offs, vl⟩ : MutableListArray t.Builder) = true ↔
      (offs ≠ [] ∧ offs.length = vl.length + 1 ∧ offsetsMono offs = true ∧
        offs.getLastD 0 = builderLen t vals ∧ bInv t vals = true) := by
  show (!offs.isEmpty && (offs.length == vl.length + 1) && offsetsMono offs &&
      (offs.getLastD 0 == builderLen t vals) && bInv t vals) = true ↔ _
  simp [and_assoc]

theorem bInv_largeVec_iff (t : Ty) (vals : t.Builder) (offs : List Nat) (vl : List Bool) :
    bInv (.largeVec t) (⟨vals, offs, vl⟩ : MutableListArray t.Builder) = true ↔
      (offs ≠ [] ∧ offs.length = vl.length + 1 ∧ offsetsMono offs = true ∧
        offs.getLastD 0 = builderLen t vals ∧ bInv t vals = true) := by
  show (!offs.isEmpty && (offs.length == vl.length + 1) && offsetsMono offs &&
      (offs.getLastD 0 == builderLen t vals) && bInv t vals) = true ↔ _
  simp [and_assoc]

theorem push_null_inv : ∀ (t : Ty) (b : t.Builder), bInv t b = true →
    bInv t (push_null t b) = true
  | .option t, b, h => push_null_inv t b h
  | .prim _, b, h => by
      simp only [bInv, beq_iff_eq] at h ⊢
      simp [push_null, h]
  | .boolean, b, h => by
      simp only [bInv, beq_iff_eq] at h ⊢
      simp [push_null, h]
  | .str, b, h => by
      simp only [bInv, beq_iff_eq] at h ⊢
      simp [push_null, h]
  | .largeStr, b, h => by
      simp only [bInv, beq_iff_eq] at h ⊢
      simp [push_null, h]
  | .binary, b, h => by
      simp only [bInv, beq_iff_eq] at h ⊢
      simp [push_null, h]
  | .largeBinary, b, h => by
      simp only [bInv, beq_iff_eq] at h ⊢
      simp [push_null, h]
  | .date, b, h => by
      simp only [bInv, beq_iff_eq] at h ⊢
      simp [push_null, h]
  | .timestamp, b, h => by
      simp only [bInv, beq_iff_eq] at h ⊢
      simp [push_null, h]
  | .vec t, b, h => by
      obtain ⟨vals, offs, vl⟩ := b
      rw [bInv_vec_iff] at h
      obtain ⟨hne, hlen, hmono, hlast, hinv⟩ := h
      show bInv (.vec t) ⟨vals, offs ++ [offs.getLastD 0], vl ++ [false]⟩ = true
      rw [bInv_vec_iff]
      refine ⟨by simp, by simp [hlen], ?_, ?_, hinv⟩
      · exact offsetsMono_append_last offs (offs.getLastD 0) hmono (le_refl _)
      · rw [List.getLastD_concat]
        exact hlast
  | .largeVec t, b, h => by
      obtain ⟨vals, offs, vl⟩ := b
      rw [bInv_largeVec_iff] at h
      obtain ⟨hne, hlen, hmono, hlast, hinv⟩ := h
      show bInv (.largeVec t) ⟨vals, offs ++ [offs.getLastD 0], vl ++ [false]⟩ = true
      rw [bInv_largeVec_iff]
      refine ⟨by simp, by simp [hlen], ?_, ?_, hinv⟩
      · exact offsetsMono_append_last offs (offs.getLastD 0) hmono (le_refl _)
      · rw [List.getLastD_concat]
        exact hlast

/-- Every successful single push preserves the builder invariant and grows
the builder by exactly one row. -/
theorem serialize_len_inv (t : Ty) : ∀ (v : t.Native) (b b2 : t.Builder),
    bInv t b = true → arrow_serialize t v b = .ok b2 →
    bInv t b2 = true ∧ builderLen t b2 = builderLen t b + 1 := by
  induction t with
  | prim p =>
      intro v b b2 hb h
      simp only [arrow_serialize] at h
      injection h with h
      subst h
      simp only [bInv, beq_iff_eq, builderLen] at hb ⊢
      simp [hb]
  | boolean =>
      intro v b b2 hb h
      simp only [arrow_serialize] at h
      injection h with h
      subst h
      simp only [bInv, beq_iff_eq, builderLen] at hb ⊢
      simp [hb]
  | str =>
      intro v b b2 hb h
      simp only [arrow_serialize] at h
      split at h
      · injection h with h
        subst h
        simp only [bInv, beq_iff_eq, builderLen] at hb ⊢
        simp [hb]
      · exact absurd h (by simp)
  | largeStr =>
      intro v b b2 hb h
      simp only [arrow_serialize] at h
      split at h
      · injection h with h
        subst h
        simp only [bInv, beq_iff_eq, builderLen] at hb ⊢
        simp [hb]
      · exact absurd h (by simp)
  | binary =>
      intro v b b2 hb h
      simp only [arrow_serialize] at h
      split at h
      · injection h with h
        subst h
        simp only [bInv, beq_iff_eq, builderLen] at hb ⊢
        simp [hb]
      · exact absurd h (by simp)
  | largeBinary =>
      intro v b b2 hb h
      simp only [arrow_serialize] at h
      split at h
      · injection h with h
        subst h
        simp only [bInv, beq_iff_eq, builderLen] at hb ⊢
        simp [hb]
      · exact absurd h (by simp)
  | date =>
      intro v b b2 hb h
      simp only [arrow_serialize] at h
      injection h with h
      subst h
      simp only [bInv, beq_iff_eq, builderLen] at hb ⊢
      simp [hb]
  | timestamp =>
      intro v b b2 hb h
      simp only [arrow_serialize] at h
      injection h with h
      subst h
      simp only [bInv, beq_iff_eq, builderLen] at hb ⊢
      simp [hb]
  | option s ihs =>
      intro v b b2 hb h
      cases v with
      | some x => exact ihs x b b2 hb h
      | none =>
          have h2 : Except.ok (ε := ArrowError) (push_null s b) = .ok b2 := h
          injection h2 with h2
          subst h2
          exact ⟨push_null_inv s b hb, push_null_len s b hb⟩
  | vec s ihs =>
      intro v b b2 hb h
      obtain ⟨vals, offs, vl⟩ := b
      have fold : ∀ (l : List s.Native) (c c2 : s.Builder), bInv s c = true →
          serFold (fun x cc => arrow_serialize s x cc) l c = .ok c2 →
          bInv s c2 = true ∧ builderLen s c2 = builderLen s c + l.length := by
        intro l
        induction l with
        | nil =>
            intro c c2 hc hh
            simp only [serFold] at hh
            injection hh with hh
            subst hh
            exact ⟨hc, by simp⟩
        | cons a r ihr =>
            intro c c2 hc hh
            simp only [serFold] at hh
            cases ha : arrow_serialize s a c with
            | error e => rw [ha] at hh; exact absurd hh (by simp)
            | ok c1 =>
                rw [ha] at hh
                obtain ⟨h1, h2⟩ := ihs a c c1 hc ha
                obtain ⟨h3, h4⟩ := ihr c1 c2 h1 hh
                refine ⟨h3, ?_⟩
                rw [h4, h2]
                simp only [List.length_cons]
                omega
      simp only [arrow_serialize] at h
      split at h
      · exact absurd h (by simp)
      · rename_i c hf
        split at h
        · injection h with h
          subst h
          rw [bInv_vec_iff] at hb
          obtain ⟨hne, hlen, hmono, hlast, hinv⟩ := hb
          obtain ⟨hc, hcl⟩ := fold v vals c hinv hf
          constructor
          · rw [bInv_vec_iff]
            refine ⟨by simp, by simp [hlen], ?_, ?_, hc⟩
            · refine offsetsMono_append_last offs _ hmono ?_
              rw [hlast, hcl]
              exact Nat.le_add_right _ _
            · rw [List.getLastD_concat]
          · show (offs ++ [builderLen s c]).length - 1 = offs.length - 1 + 1
            have hh0 : offs.length ≠ 0 := by
              cases offs
              · exact absurd rfl hne
              · simp
            simp only [List.length_append, List.length_cons, List.length_nil]
            omega
        · exact absurd h (by simp)
  | largeVec s ihs =>
      intro v b b2 hb h
      obtain ⟨vals, offs, vl⟩ := b
      have fold : ∀ (l : List s.Native) (c c2 : s.Builder), bInv s c = true →
          serFold (fun x cc => arrow_serialize s x cc) l c = .ok c2 →
          bInv s c2 = true ∧ builderLen s c2 = builderLen s c + l.length := by
        intro l
        induction l with
        | nil =>
            intro c c2 hc hh
            simp only [serFold] at hh
            injection hh with hh
            subst hh
            exact ⟨hc, by simp⟩
        | cons a r ihr =>
            intro c c2 hc hh
            simp only [serFold] at hh
            cases ha : arrow_serialize s a c with
            | error e => rw [ha] at hh; exact absurd hh (by simp)
            | ok c1 =>
                rw [ha] at hh
                obtain ⟨h1, h2⟩ := ihs a c c1 hc ha
                obtain ⟨h3, h4⟩ := ihr c1 c2 h1 hh
                refine ⟨h3, ?_⟩
                rw [h4, h2]
                simp only [List.length_cons]
                omega
      simp only [arrow_serialize] at h
      split at h
      · exact absurd h (by simp)
      · rename_i c hf
        split at h
        · injection h with h
          subst h
          rw [bInv_largeVec_iff] at hb
          obtain ⟨hne, hlen, hmono, hlast, hinv⟩ := hb
          obtain ⟨hc, hcl⟩ := fold v vals c hinv hf
          constructor
          · rw [bInv_largeVec_iff]
            refine ⟨by simp, by simp [hlen], ?_, ?_, hc⟩
            · refine offsetsMono_append_last offs _ hmono ?_
              rw [hlast, hcl]
              exact Nat.le_add_right _ _
            · rw [List.getLastD_concat]
          · show (offs ++ [builderLen s c]).length - 1 = offs.length - 1 + 1
            have hh0 : offs.length ≠ 0 := by
              cases offs
              · exact absurd rfl hne
              · simp
            simp only [List.length_append, List.length_cons, List.length_nil]
            omega
        · exact absurd h (by simp)

/-- A successful bulk push preserves the invariant and grows the builder by
the number of elements pushed. -/
theorem serFold_len_inv (t : Ty) : ∀ (l : List t.Native) (b b2 : t.Builder),
    bInv t b = true → serFold (arrow_serialize t) l b = .ok b2 →
    bInv t b2 = true ∧ builderLen t b2 = builderLen t b + l.length := by
  intro l
  induction l with
  | nil =>
      intro b b2 hb hh
      simp only [serFold] at hh
      injection hh with hh
      subst hh
      exact ⟨hb, by simp⟩
  | cons a r ihr =>
      intro b b2 hb hh
      simp only [serFold] at hh
      cases ha : arrow_serialize t a b with
      | error e => rw [ha] at hh; exact absurd hh (by simp)
      | ok b1 =>
          rw [ha] at hh
          obtain ⟨h1, h2⟩ := serialize_len_inv t a b b1 hb ha
          obtain ⟨h3, h4⟩ := ihr b1 b2 h1 hh
          refine ⟨h3, ?_⟩
          rw [h4, h2]
          simp only [List.length_cons]
          omega

theorem new_array_inv : ∀ t : Ty, bInv t (new_array t) = true ∧
    builderLen t (new_array t) = 0
  | .option t => new_array_inv t
  | .prim _ => ⟨rfl, rfl⟩
  | .boolean => ⟨rfl, rfl⟩
  | .str => ⟨rfl, rfl⟩
  | .largeStr => ⟨rfl, rfl⟩
  | .binary => ⟨rfl, rfl⟩
  | .largeBinary => ⟨rfl, rfl⟩
  | .date => ⟨rfl, rfl⟩
  | .timestamp => ⟨rfl, rfl⟩
  | .vec t => by
      have h := new_array_inv t
      constructor
      · show bInv (.vec t) ⟨new_array t, [0], []⟩ = true
        rw [bInv_vec_iff]
        exact ⟨by simp, by simp, rfl, h.2.symm, h.1⟩
      · rfl
  | .largeVec t => by
      have h := new_array_inv t
      constructor
      · show bInv (.largeVec t) ⟨new_array t, [0], []⟩ = true
        rw [bInv_largeVec_iff]
        exact ⟨by simp, by simp, rfl, h.2.symm, h.1⟩
      · rfl

/-- Reserving capacity touches only the capacity bookkeeping: invariant,
length, rows and validity are unchanged. -/
theorem reserve_fields : ∀ (t : Ty) (b : t.Builder) (n k : Nat),
    bInv t (reserve t b n k) = bInv t b ∧
    builderLen t (reserve t b n k) = builderLen t b ∧
    builderItems t (reserve t b n k) = builderItems t b
  | .option t, b, n, k => reserve_fields t b n k
  | .prim _, _, _, _ => ⟨rfl, rfl, rfl⟩
  | .boolean, _, _, _ => ⟨rfl, rfl, rfl⟩
  | .str, _, _, _ => ⟨rfl, rfl, rfl⟩
  | .largeStr, _, _, _ => ⟨rfl, rfl, rfl⟩
  | .binary, _, _, _ => ⟨rfl, rfl, rfl⟩
  | .largeBinary, _, _, _ => ⟨rfl, rfl, rfl⟩
  | .date, _, _, _ => ⟨rfl, rfl, rfl⟩
  | .timestamp, _, _, _ => ⟨rfl, rfl, rfl⟩
  | .vec _, _, _, _ => ⟨rfl, rfl, rfl⟩
  | .largeVec _, _, _, _ => ⟨rfl, rfl, rfl⟩

theorem finalize_len : ∀ (t : Ty) (b : t.Builder),
    (finalize t b).len = builderLen t b
  | .option t, b => finalize_len t b
  | .prim _, _ => rfl
  | .boolean, _ => rfl
  | .str, _ => rfl
  | .largeStr, _ => rfl
  | .binary, _ => rfl
  | .largeBinary, _ => rfl
  | .date, _ => rfl
  | .timestamp, _ => rfl
  | .vec _, _ => rfl
  | .largeVec _, _ => rfl

/-- On a structurally well-formed array a successful downcast yields
exactly `len` items. -/
theorem iter_len (t : Ty) : ∀ (a : AnyArray), a.phys.structWF = true →
    ∀ items, iter_from_array_ref t a = some items → items.length = a.len := by
  induction t with
  | option s ihs => exact ihs
  | prim p =>
      intro a hw items hi
      obtain ⟨dt, phys⟩ := a
      cases phys <;> simp only [iter_from_array_ref] at hi <;> try exact Option.noConfusion hi
      case prim tag vs vl =>
        split at hi
        · injection hi with hi
          subst hi
          simp only [PhysArray.structWF, beq_iff_eq] at hw
          simp [zipValidity_length, AnyArray.len, PhysArray.len, hw]
        · exact absurd hi (by simp)
  | boolean =>
      intro a hw items hi
      obtain ⟨dt, phys⟩ := a
      cases phys <;> simp only [iter_from_array_ref] at hi <;> try exact Option.noConfusion hi
      case boolA vs vl =>
        injection hi with hi
        subst hi
        simp only [PhysArray.structWF, beq_iff_eq] at hw
        simp [zipValidity_length, AnyArray.len, PhysArray.len, hw]
  | str =>
      intro a hw items hi
      obtain ⟨dt, phys⟩ := a
      cases phys <;> simp only [iter_from_array_ref] at hi <;> try exact Option.noConfusion hi
      case utf8A o vs vl =>
        cases o <;> simp only [] at hi
        · injection hi with hi
          subst hi
          simp only [PhysArray.structWF, beq_iff_eq] at hw
          simp [zipValidity_length, AnyArray.len, PhysArray.len, hw]
        · exact absurd hi (by simp)
  | largeStr =>
      intro a hw items hi
      obtain ⟨dt, phys⟩ := a
      cases phys <;> simp only [iter_from_array_ref] at hi <;> try exact Option.noConfusion hi
      case utf8A o vs vl =>
        cases o <;> simp only [] at hi
        · exact absurd hi (by simp)
        · injection hi with hi
          subst hi
          simp only [PhysArray.structWF, beq_iff_eq] at hw
          simp [zipValidity_length, AnyArray.len, PhysArray.len, hw]
  | binary =>
      intro a hw items hi
      obtain ⟨dt, phys⟩ := a
      cases phys <;> simp only [iter_from_array_ref] at hi <;> try exact Option.noConfusion hi
      case binA o vs vl =>
        cases o <;> simp only [] at hi
        · injection hi with hi
          subst hi
          simp only [PhysArray.structWF, beq_iff_eq] at hw
          simp [zipValidity_length, AnyArray.len, PhysArray.len, hw]
        · exact absurd hi (by simp)
  | largeBinary =>
      intro a hw items hi
      obtain ⟨dt, phys⟩ := a
      cases phys <;> simp only [iter_from_array_ref] at hi <;> try exact Option.noConfusion hi
      case binA o vs vl =>
        cases o <;> simp only [] at hi
        · exact absurd hi (by simp)
        · injection hi with hi
          subst hi
          simp only [PhysArray.structWF, beq_iff_eq] at hw
          simp [zipValidity_length, AnyArray.len, PhysArray.len, hw]
  | date =>
      intro a hw items hi
      obtain ⟨dt, phys⟩ := a
      cases phys <;> simp only [iter_from_array_ref] at hi <;> try exact Option.noConfusion hi
      case prim tag vs vl =>
        cases tag <;> simp only [] at hi
        all_goals first
        | (injection hi with hi
           subst hi
           simp only [PhysArray.structWF, beq_iff_eq] at hw
           simp [zipValidity_length, AnyArray.len, PhysArray.len, hw])
        | exact absurd hi (by simp)
  | timestamp =>
      intro a hw items hi
      obtain ⟨dt, phys⟩ := a
      cases phys <;> simp only [iter_from_array_ref] at hi <;> try exact Option.noConfusion hi
      case prim tag vs vl =>
        cases tag <;> simp only [] at hi
        all_goals first
        | (injection hi with hi
           subst hi
           simp only [PhysArray.structWF, beq_iff_eq] at hw
           simp [zipValidity_length, AnyArray.len, PhysArray.len, hw])
        | exact absurd hi (by simp)
  | vec s ihs =>
      intro a hw items hi
      obtain ⟨dt, phys⟩ := a
      cases phys <;> simp only [iter_from_array_ref] at hi <;> try exact Option.noConfusion hi
      case listA o offs cdt c vl =>
        cases o <;> simp only [] at hi
        · injection hi with hi
          subst hi
          simp only [PhysArray.structWF, Bool.and_eq_true, beq_iff_eq] at hw
          simp [zipValidity_length, AnyArray.len, PhysArray.len,
            offsetWindows_length, hw.1.1.1]
        · exact absurd hi (by simp)
  | largeVec s ihs =>
      intro a hw items hi
      obtain ⟨dt, phys⟩ := a
      cases phys <;> simp only [iter_from_array_ref] at hi <;> try exact Option.noConfusion hi
      case listA o offs cdt c vl =>
        cases o <;> simp only [] at hi
        · exact absurd hi (by simp)
        · injection hi with hi
          subst hi
          simp only [PhysArray.structWF, Bool.and_eq_true, beq_iff_eq] at hw
          simp [zipValidity_length, AnyArray.len, PhysArray.len,
            offsetWindows_length, hw.1.1.1]

/-! ### C4: two-phase nested-sequence serialize -/

/-- C4: for `Vec<T>` and `LargeVec<T>`, a successful `arrow_serialize`
factors as: first every child element is pushed, in order, into the inner
child builder (the fold over the children), and only afterwards a single
valid row-terminator is pushed onto the outer builder, whose offset is the
child builder length after the pushes, so its implicit length equals the
number of child pushes performed since the previous marker. -/
theorem c4_children_then_marker :
    (∀ (t : Ty) (v : List t.Native) (b b2 : MutableListArray t.Builder),
      bInv (.vec t) b = true →
      arrow_serialize (.vec t) v b = .ok b2 →
      ∃ c, serFold (arrow_serialize t) v b.values = .ok c ∧
        b2 = ⟨c, b.offsets ++ [builderLen t c], b.validity ++ [true]⟩ ∧
        builderLen t c = builderLen t b.values + v.length) ∧
    (∀ (t : Ty) (v : List t.Native) (b b2 : MutableListArray t.Builder),
      bInv (.largeVec t) b = true →
      arrow_serialize (.largeVec t) v b = .ok b2 →
      ∃ c, serFold (arrow_serialize t) v b.values = .ok c ∧
        b2 = ⟨c, b.offsets ++ [builderLen t c], b.validity ++ [true]⟩ ∧
        builderLen t c = builderLen t b.values + v.length) := by
  constructor
  · intro t v b b2 hb h
    obtain ⟨vals, offs, vl⟩ := b
    rw [bInv_vec_iff] at hb
    obtain ⟨hne, hlen, hmono, hlast, hinv⟩ := hb
    simp only [arrow_serialize] at h
    split at h
    · exact absurd h (by simp)
    · rename_i c hf
      split at h
      · injection h with h
        subst h
        exact ⟨c, hf, rfl, (serFold_len_inv t v vals c hinv hf).2⟩
      · exact absurd h (by simp)
  · intro t v b b2 hb h
    obtain ⟨vals, offs, vl⟩ := b
    rw [bInv_largeVec_iff] at hb
    obtain ⟨hne, hlen, hmono, hlast, hinv⟩ := hb
    simp only [arrow_serialize] at h
    split at h
    · exact absurd h (by simp)
    · rename_i c hf
      split at h
      · injection h with h
        subst h
        exact ⟨c, hf, rfl, (serFold_len_inv t v vals c hinv hf).2⟩
      · exact absurd h (by simp)

/-- Witness for `c4_children_then_marker` on `Vec<u8>` and `LargeVec<u8>`
rows pushed onto fresh list builders. -/
theorem c4_children_then_marker_witness :
    (∃ c, serFold (arrow_serialize (.prim .u8)) [1, 2]
        (⟨[], [], 0⟩ : MutablePrimitiveArray) = .ok c ∧
      builderLen (.prim .u8) c = 2) ∧
    (∃ c, serFold (arrow_serialize (.prim .u8)) [7]
        (⟨[], [], 0⟩ : MutablePrimitiveArray) = .ok c ∧
      builderLen (.prim .u8) c = 1) := by
  constructor
  · obtain ⟨c, hf, _, hl⟩ := c4_children_then_marker.1 (.prim .u8) [1, 2]
      ⟨⟨[], [], 0⟩, [0], []⟩ ⟨⟨[1, 2], [true, true], 0⟩, [0, 2], [true]⟩
      (by decide) (by rfl)
    exact ⟨c, hf, by rw [hl]; rfl⟩
  · obtain ⟨c, hf, _, hl⟩ := c4_children_then_marker.2 (.prim .u8) [7]
      ⟨⟨[], [], 0⟩, [0], []⟩ ⟨⟨[7], [true], 0⟩, [0, 1], [true]⟩
      (by decide) (by rfl)
    exact ⟨c, hf, by rw [hl]; rfl⟩

/-! ### C6: first error aborts the bulk encode -/

/-- C6: in the generic bulk encode (`arrow_serialize_extend_internal` /
`arrow_serialize_internal`, generic over the serialized type), if every
element before position i serializes successfully and element i fails with
error e, the whole bulk encode stops and returns that first error: the
result over the full input equals the result over the input truncated just
after the failing element (nothing after i is serialized), and no builder
or column value is returned. -/
theorem c6_first_error_aborts {α β : Type} (res : β → Nat → Nat → β)
    (ser : α → β → Except ArrowError β) (xs ys : List α) (x : α) (e : ArrowError)
    (b b1 : β)
    (h1 : serFold ser xs (res b (xs ++ x :: ys).length 0) = .ok b1)
    (h2 : ser x b1 = .error e) :
    arrow_serialize_extend_internalG res ser (xs ++ x :: ys) b = .error e ∧
    serFold ser (xs ++ x :: ys) (res b (xs ++ x :: ys).length 0) =
      serFold ser (xs ++ [x]) (res b (xs ++ x :: ys).length 0) ∧
    arrow_serialize_internalG b res ser (xs ++ x :: ys) = .error e := by
  have hA : serFold ser (xs ++ x :: ys) (res b (xs ++ x :: ys).length 0) = .error e := by
    rw [serFold_append_ok ser xs (x :: ys) _ b1 h1]
    simp [serFold, h2]
  have hB : serFold ser (xs ++ [x]) (res b (xs ++ x :: ys).length 0) = .error e := by
    rw [serFold_append_ok ser xs [x] _ b1 h1]
    simp [serFold, h2]
  exact ⟨hA, hA.trans hB.symm, hA⟩

/-- Witness for `c6_first_error_aborts` with a concrete failing serializer
at position 2 of a four-element input. -/
theorem c6_first_error_aborts_witness :
    arrow_serialize_extend_internalG (fun (b : Nat) (_ _ : Nat) => b)
      (fun (a : Nat) (b : Nat) => if a = 0 then .error .overflow else .ok (b + 1))
      ([1, 2] ++ 0 :: [3]) 0 = .error .overflow :=
  (c6_first_error_aborts (fun b _ _ => b)
    (fun a b => if a = 0 then .error .overflow else .ok (b + 1))
    [1, 2] [3] 0 .overflow 0 2 (by rfl) (by rfl)).1

/-! ### C10: length preservation -/

/-- C10: every successful per-element serialize pushes exactly one slot
onto the outer builder; a successful bulk encode of n native values
finalizes to a physical column with exactly n rows; and the decode
iterator over a well-formed column of n rows that completes successfully
yields exactly n native values. -/
theorem c10_length_preservation :
    (∀ (t : Ty) (v : t.Native) (b b2 : t.Builder), bInv t b = true →
        arrow_serialize t v b = .ok b2 →
        builderLen t b2 = builderLen t b + 1) ∧
    (∀ (t : Ty) (xs : List t.Native) (a : AnyArray), into_arrow t xs = .ok a →
        a.len = xs.length) ∧
    (∀ (t : Ty) (a : AnyArray) (l : List t.Native), AnyArray.wf a = true →
        try_into_iter t a = .ok (some l) → l.length = a.len) := by
  refine ⟨fun t v b b2 hb h => (serialize_len_inv t v b b2 hb h).2, ?_, ?_⟩
  · intro t xs a h
    simp only [into_arrow] at h
    cases hi : arrow_serialize_internal t xs with
    | error e => rw [hi] at h; exact absurd h (by simp [Except.map])
    | ok b2 =>
        rw [hi] at h
        simp only [Except.map] at h
        injection h with h
        subst h
        have hb0 : bInv t (reserve t (new_array t) xs.length 0) = true := by
          rw [(reserve_fields t _ _ _).1]
          exact (new_array_inv t).1
        have hl0 : builderLen t (reserve t (new_array t) xs.length 0) = 0 := by
          rw [(reserve_fields t _ _ _).2.1]
          exact (new_array_inv t).2
        have hf : serFold (arrow_serialize t) xs
            (reserve t (new_array t) xs.length 0) = .ok b2 := hi
        obtain ⟨_, hlen⟩ := serFold_len_inv t xs _ b2 hb0 hf
        rw [finalize_len, hlen, hl0]
        simp
  · intro t a l hw h
    simp only [try_into_iter, arrow_array_deserialize_iterator,
      arrow_array_deserialize_iterator_as_type] at h
    split at h
    · exact absurd h (by simp)
    · injection h with h
      simp only [arrow_array_deserialize_iterator_internal] at h
      cases hi : iter_from_array_ref t a with
      | none => rw [hi] at h; exact absurd h (by simp)
      | some items =>
          rw [hi] at h
          simp only [Option.some_bind] at h
          have h1 := mapO_length _ items l h
          have h2 : a.phys.structWF = true := by
            simp only [AnyArray.wf, Bool.and_eq_true] at hw
            exact hw.2
          rw [h1, iter_len t a h2 items hi]

/-- Witness for `c10_length_preservation`: a three-element u16 encode has
length 3, its decode yields three values, and a single push grows a
builder by one. -/
theorem c10_length_preservation_witness :
    (⟨.uint16, .prim .pU16 [1, 2, 3] [true, true, true]⟩ : AnyArray).len =
      ([1, 2, 3] : List Int).length ∧
    ([1, 2, 3] : List Int).length =
      (⟨.uint16, .prim .pU16 [1, 2, 3] [true, true, true]⟩ : AnyArray).len ∧
    builderLen (.prim .u16) ⟨[5], [true], 0⟩ =
      builderLen (.prim .u16) ⟨[], [], 0⟩ + 1 := by
  refine ⟨?_, ?_, ?_⟩
  · exact c10_length_preservation.2.1 (.prim .u16) [1, 2, 3] _ (by rfl)
  · exact c10_length_preservation.2.2 (.prim .u16) _ [1, 2, 3] (by decide) (by rfl)
  · exact c10_length_preservation.1 (.prim .u16) 5 ⟨[], [], 0⟩ ⟨[5], [true], 0⟩
      (by decide) (by rfl)

/-! ### C8: behaviour after the type check has passed -/

/-- On an array whose recorded data type is compatible with its physical
layout, a matching requested logical type guarantees the downcast in
`iter_from_array_ref` succeeds. -/
theorem compat_downcast (t : Ty) : ∀ (a : AnyArray),
    dtypePhysCompat a.dataType a.phys = true → t.dataType = a.dataType →
    ∃ items, iter_from_array_ref t a = some items := by
  induction t with
  | option s ihs => exact fun a hc ht => ihs a hc ht
  | prim p =>
      intro a hc ht
      obtain ⟨dt, phys⟩ := a
      simp only [AnyArray.dataType] at ht
      subst ht
      cases phys with
      | prim tag vs vl =>
          cases p <;> cases tag <;>
            simp_all [dtypePhysCompat, PrimTy.dataType, PrimTy.physTag,
              Ty.dataType, iter_from_array_ref]
      | boolA vs vl =>
          cases p <;> simp_all [dtypePhysCompat, PrimTy.dataType, Ty.dataType]
      | utf8A o vs vl =>
          cases p <;> simp_all [dtypePhysCompat, PrimTy.dataType, Ty.dataType]
      | binA o vs vl =>
          cases p <;> simp_all [dtypePhysCompat, PrimTy.dataType, Ty.dataType]
      | listA o offs cdt c vl =>
          cases p <;> simp_all [dtypePhysCompat, PrimTy.dataType, Ty.dataType]
  | boolean =>
      intro a hc ht
      obtain ⟨dt, phys⟩ := a
      simp only [AnyArray.dataType] at ht
      subst ht
      cases phys <;> simp_all [dtypePhysCompat, Ty.dataType, iter_from_array_ref]
  | str =>
      intro a hc ht
      obtain ⟨dt, phys⟩ := a
      simp only [AnyArray.dataType] at ht
      subst ht
      cases phys with
      | utf8A o vs vl =>
          cases o <;> simp_all [dtypePhysCompat, Ty.dataType, iter_from_array_ref]
      | prim tag vs vl => simp_all [dtypePhysCompat, Ty.dataType]
      | boolA vs vl => simp_all [dtypePhysCompat, Ty.dataType]
      | binA o vs vl => simp_all [dtypePhysCompat, Ty.dataType]
      | listA o offs cdt c vl => simp_all [dtypePhysCompat, Ty.dataType]
  | largeStr =>
      intro a hc ht
      obtain ⟨dt, phys⟩ := a
      simp only [AnyArray.dataType] at ht
      subst ht
      cases phys with
      | utf8A o vs vl =>
          cases o <;> simp_all [dtypePhysCompat, Ty.dataType, iter_from_array_ref]
      | prim tag vs vl => simp_all [dtypePhysCompat, Ty.dataType]
      | boolA vs vl => simp_all [dtypePhysCompat, Ty.dataType]
      | binA o vs vl => simp_all [dtypePhysCompat, Ty.dataType]
      | listA o offs cdt c vl => simp_all [dtypePhysCompat, Ty.dataType]
  | binary =>
      intro a hc ht
      obtain ⟨dt, phys⟩ := a
      simp only [AnyArray.dataType] at ht
      subst ht
      cases phys with
      | binA o vs vl =>
          cases o <;> simp_all [dtypePhysCompat, Ty.dataType, iter_from_array_ref]
      | prim tag vs vl => simp_all [dtypePhysCompat, Ty.dataType]
      | boolA vs vl => simp_all [dtypePhysCompat, Ty.dataType]
      | utf8A o vs vl => simp_all [dtypePhysCompat, Ty.dataType]
      | listA o offs cdt c vl => simp_all [dtypePhysCompat, Ty.dataType]
  | largeBinary =>
      intro a hc ht
      obtain ⟨dt, phys⟩ := a
      simp only [AnyArray.dataType] at ht
      subst ht
      cases phys with
      | binA o vs vl =>
          cases o <;> simp_all [dtypePhysCompat, Ty.dataType, iter_from_array_ref]
      | prim tag vs vl => simp_all [dtypePhysCompat, Ty.dataType]
      | boolA vs vl => simp_all [dtypePhysCompat, Ty.dataType]
      | utf8A o vs vl => simp_all [dtypePhysCompat, Ty.dataType]
      | listA o offs cdt c vl => simp_all [dtypePhysCompat, Ty.dataType]
  | date =>
      intro a hc ht
      obtain ⟨dt, phys⟩ := a
      simp only [AnyArray.dataType] at ht
      subst ht
      cases phys with
      | prim tag vs vl =>
          cases tag <;> simp_all [dtypePhysCompat, Ty.dataType, iter_from_array_ref]
      | boolA vs vl => simp_all [dtypePhysCompat, Ty.dataType]
      | utf8A o vs vl => simp_all [dtypePhysCompat, Ty.dataType]
      | binA o vs vl => simp_all [dtypePhysCompat, Ty.dataType]
      | listA o offs cdt c vl => simp_all [dtypePhysCompat, Ty.dataType]
  | timestamp =>
      intro a hc ht
      obtain ⟨dt, phys⟩ := a
      simp only [AnyArray.dataType] at ht
      subst ht
      cases phys with
      | prim tag vs vl =>
          cases tag <;> simp_all [dtypePhysCompat, Ty.dataType, iter_from_array_ref]
      | boolA vs vl => simp_all [dtypePhysCompat, Ty.dataType]
      | utf8A o vs vl => simp_all [dtypePhysCompat, Ty.dataType]
      | binA o vs vl => simp_all [dtypePhysCompat, Ty.dataType]
      | listA o offs cdt c vl => simp_all [dtypePhysCompat, Ty.dataType]
  | vec s ihs =>
      intro a hc ht
      obtain ⟨dt, phys⟩ := a
      simp only [AnyArray.dataType] at ht
      subst ht
      cases phys with
      | listA o offs cdt c vl =>
          cases o <;> simp_all [dtypePhysCompat, Ty.dataType, iter_from_array_ref]
      | prim tag vs vl => simp_all [dtypePhysCompat, Ty.dataType]
      | boolA vs vl => simp_all [dtypePhysCompat, Ty.dataType]
      | utf8A o vs vl => simp_all [dtypePhysCompat, Ty.dataType]
      | binA o vs vl => simp_all [dtypePhysCompat, Ty.dataType]
  | largeVec s ihs =>
      intro a hc ht
      obtain ⟨dt, phys⟩ := a
      simp only [AnyArray.dataType] at ht
      subst ht
      cases phys with
      | listA o offs cdt c vl =>
          cases o <;> simp_all [dtypePhysCompat, Ty.dataType, iter_from_array_ref]
      | prim tag vs vl => simp_all [dtypePhysCompat, Ty.dataType]
      | boolA vs vl => simp_all [dtypePhysCompat, Ty.dataType]
      | utf8A o vs vl => simp_all [dtypePhysCompat, Ty.dataType]
      | binA o vs vl => simp_all [dtypePhysCompat, Ty.dataType]

/-- C8 (amended): once the logical-type check has passed on a well-formed
array, the iterator construction itself cannot fail: the physical downcast
succeeds and `arrow_array_deserialize_iterator_as_type` returns `Ok` with
the internal iterator; per-element decoding has no error channel. (The
original claim is refuted by `c8_counterexample`: consuming the iterator
can still panic when a null slot is decoded at a non-nullable type.) -/
theorem c8_construct_after_check (t : Ty) (a : AnyArray) (hw : AnyArray.wf a = true)
    (ht : t.dataType = a.dataType) :
    (∃ items, iter_from_array_ref t a = some items) ∧
    arrow_array_deserialize_iterator_as_type t a =
      .ok (arrow_array_deserialize_iterator_internal t a) := by
  constructor
  · refine compat_downcast t a ?_ ht
    simp only [AnyArray.wf, Bool.and_eq_true] at hw
    exact hw.1
  · simp [arrow_array_deserialize_iterator_as_type, ht]

/-- Witness for `c8_construct_after_check` on a matching Int32 decode. -/
theorem c8_construct_after_check_witness :
    (∃ items, iter_from_array_ref (.prim .i32)
        ⟨.int32, .prim .pI32 [0] [false]⟩ = some items) ∧
    arrow_array_deserialize_iterator_as_type (.prim .i32)
        ⟨.int32, .prim .pI32 [0] [false]⟩ =
      .ok (arrow_array_deserialize_iterator_internal (.prim .i32)
        ⟨.int32, .prim .pI32 [0] [false]⟩) :=
  c8_construct_after_check (.prim .i32) ⟨.int32, .prim .pI32 [0] [false]⟩
    (by decide) (by decide)

/-- C8 counterexample: the claim says deserialization cannot fail once the
data types agree. On a well-formed Int32 column holding one null slot,
decoding at the non-nullable type `i32` passes the type check (nullability
is not part of the data type) but consuming the iterator hits
`arrow_deserialize_internal`'s `unwrap` of a missing value: the pulled
iterator is a panic (`none`), so deserialization does fail. -/
theorem c8_counterexample :
    Ty.dataType (.prim .i32) =
      (⟨.int32, .prim .pI32 [0] [false]⟩ : AnyArray).dataType ∧
    AnyArray.wf ⟨.int32, .prim .pI32 [0] [false]⟩ = true ∧
    try_into_iter (.prim .i32) ⟨.int32, .prim .pI32 [0] [false]⟩ = .ok none :=
  ⟨by decide, by decide, by rfl⟩

/-! ### Builder items and decode-view lemmas -/

theorem drop_take_append {γ : Type} (xs ys : List γ) (s l : Nat)
    (h : s + l ≤ xs.length) :
    ((xs ++ ys).drop s).take l = (xs.drop s).take l := by
  rw [List.drop_append_of_le_length (by omega)]
  rw [List.take_append_of_le_length]
  rw [List.length_drop]
  omega

theorem builderItems_new : ∀ t : Ty, builderItems t (new_array t) = []
  | .option t => builderItems_new t
  | .prim _ => rfl
  | .boolean => rfl
  | .str => rfl
  | .largeStr => rfl
  | .binary => rfl
  | .largeBinary => rfl
  | .date => rfl
  | .timestamp => rfl
  | .vec _ => rfl
  | .largeVec _ => rfl

theorem builderItems_len : ∀ (t : Ty) (b : t.Builder), bInv t b = true →
    (builderItems t b).length = builderLen t b
  | .option t, b, h => builderItems_len t b h
  | .prim _, b, h => by
      simp only [bInv, beq_iff_eq] at h
      simp [builderItems, zipValidity_length, builderLen, h]
  | .boolean, b, h => by
      simp only [bInv, beq_iff_eq] at h
      simp [builderItems, zipValidity_length, builderLen, h]
  | .str, b, h => by
      simp only [bInv, beq_iff_eq] at h
      simp [builderItems, zipValidity_length, builderLen, h]
  | .largeStr, b, h => by
      simp only [bInv, beq_iff_eq] at h
      simp [builderItems, zipValidity_length, builderLen, h]
  | .binary, b, h => by
      simp only [bInv, beq_iff_eq] at h
      simp [builderItems, zipValidity_length, builderLen, h]
  | .largeBinary, b, h => by
      simp only [bInv, beq_iff_eq] at h
      simp [builderItems, zipValidity_length, builderLen, h]
  | .date, b, h => by
      simp only [bInv, beq_iff_eq] at h
      simp [builderItems, zipValidity_length, builderLen, h]
  | .timestamp, b, h => by
      simp only [bInv, beq_iff_eq] at h
      simp [builderItems, zipValidity_length, builderLen, h]
  | .vec t, b, h => by
      obtain ⟨vals, offs, vl⟩ := b
      rw [bInv_vec_iff] at h
      obtain ⟨hne, hlen, _, _, _⟩ := h
      simp [builderItems, zipValidity_length, builderLen, offsetWindows_length, hlen]
  | .largeVec t, b, h => by
      obtain ⟨vals, offs, vl⟩ := b
      rw [bInv_largeVec_iff] at h
      obtain ⟨hne, hlen, _, _, _⟩ := h
      simp [builderItems, zipValidity_length, builderLen, offsetWindows_length, hlen]

theorem push_null_items : ∀ (t : Ty) (b : t.Builder), bInv t b = true →
    builderItems t (push_null t b) = builderItems t b ++ [none]
  | .option t, b, h => push_null_items t b h
  | .prim _, b, h => by
      simp only [bInv, beq_iff_eq] at h
      show zipValidity (b.values ++ [0]) (b.validity ++ [false]) = _
      rw [zipValidity_append _ _ _ _ h]
      rfl
  | .boolean, b, h => by
      simp only [bInv, beq_iff_eq] at h
      show zipValidity (b.values ++ [false]) (b.validity ++ [false]) = _
      rw [zipValidity_append _ _ _ _ h]
      rfl
  | .str, b, h => by
      simp only [bInv, beq_iff_eq] at h
      show zipValidity (b.values ++ [""]) (b.validity ++ [false]) = _
      rw [zipValidity_append _ _ _ _ h]
      rfl
  | .largeStr, b, h => by
      simp only [bInv, beq_iff_eq] at h
      show zipValidity (b.values ++ [""]) (b.validity ++ [false]) = _
      rw [zipValidity_append _ _ _ _ h]
      rfl
  | .binary, b, h => by
      simp only [bInv, beq_iff_eq] at h
      show zipValidity (b.values ++ [[]]) (b.validity ++ [false]) = _
      rw [zipValidity_append _ _ _ _ h]
      rfl
  | .largeBinary, b, h => by
      simp only [bInv, beq_iff_eq] at h
      show zipValidity (b.values ++ [[]]) (b.validity ++ [false]) = _
      rw [zipValidity_append _ _ _ _ h]
      rfl
  | .date, b, h => by
      simp only [bInv, beq_iff_eq] at h
      show zipValidity (b.values ++ [0]) (b.validity ++ [false]) = _
      rw [zipValidity_append _ _ _ _ h]
      rfl
  | .timestamp, b, h => by
      simp only [bInv, beq_iff_eq] at h
      show zipValidity (b.values ++ [0]) (b.validity ++ [false]) = _
      rw [zipValidity_append _ _ _ _ h]
      rfl
  | .vec t, b, h => by
      obtain ⟨vals, offs, vl⟩ := b
      rw [bInv_vec_iff] at h
      obtain ⟨hne, hlen, _, _, _⟩ := h
      show zipValidity
          ((offsetWindows (offs ++ [offs.getLastD 0])).map _) (vl ++ [false]) = _
      rw [offsetWindows_append_last offs _ hne, List.map_append,
        zipValidity_append _ _ _ _ (by simp [offsetWindows_length, hlen])]
      rfl
  | .largeVec t, b, h => by
      obtain ⟨vals, offs, vl⟩ := b
      rw [bInv_largeVec_iff] at h
      obtain ⟨hne, hlen, _, _, _⟩ := h
      show zipValidity
          ((offsetWindows (offs ++ [offs.getLastD 0])).map _) (vl ++ [false]) = _
      rw [offsetWindows_append_last offs _ hne, List.map_append,
        zipValidity_append _ _ _ _ (by simp [offsetWindows_length, hlen])]
      rfl

/-- The finalized array of a builder downcasts successfully and yields
exactly the builder rows. -/
theorem iter_finalize : ∀ (t : Ty) (b : t.Builder),
    iter_from_array_ref t (finalize t b) = some (builderItems t b)
  | .option t, b => iter_finalize t b
  | .prim p, b => by
      show (if p.physTag = p.physTag then some (zipValidity b.values b.validity)
        else none) = some (builderItems (.prim p) b)
      rw [if_pos rfl]
      rfl
  | .boolean, b => rfl
  | .str, b => rfl
  | .largeStr, b => rfl
  | .binary, b => rfl
  | .largeBinary, b => rfl
  | .date, b => rfl
  | .timestamp, b => rfl
  | .vec _, b => rfl
  | .largeVec _, b => rfl

/-- Slicing the finalized array of a builder yields the corresponding
window of the builder rows. -/
theorem slice_items : ∀ (t : Ty) (b : t.Builder) (dt : DataType) (s l : Nat),
    iter_from_array_ref t ⟨dt, (finalizePhys t b).slice s l⟩ =
      some (((builderItems t b).drop s).take l)
  | .option t, b, dt, s, l => slice_items t b dt s l
  | .prim p, b, dt, s, l => by
      show (if p.physTag = p.physTag then
        some (zipValidity ((b.values.drop s).take l) ((b.validity.drop s).take l))
        else none) = _
      rw [if_pos rfl]
      rw [zipValidity_take, zipValidity_drop]
      rfl
  | .boolean, b, dt, s, l => by
      show some (zipValidity ((b.values.drop s).take l)
        ((b.validity.drop s).take l)) = _
      rw [zipValidity_take, zipValidity_drop]
      rfl
  | .str, b, dt, s, l => by
      show some (zipValidity ((b.values.drop s).take l)
        ((b.validity.drop s).take l)) = _
      rw [zipValidity_take, zipValidity_drop]
      rfl
  | .largeStr, b, dt, s, l => by
      show some (zipValidity ((b.values.drop s).take l)
        ((b.validity.drop s).take l)) = _
      rw [zipValidity_take, zipValidity_drop]
      rfl
  | .binary, b, dt, s, l => by
      show some (zipValidity ((b.values.drop s).take l)
        ((b.validity.drop s).take l)) = _
      rw [zipValidity_take, zipValidity_drop]
      rfl
  | .largeBinary, b, dt, s, l => by
      show some (zipValidity ((b.values.drop s).take l)
        ((b.validity.drop s).take l)) = _
      rw [zipValidity_take, zipValidity_drop]
      rfl
  | .date, b, dt, s, l => by
      show some (zipValidity ((b.values.drop s).take l)
        ((b.validity.drop s).take l)) = _
      rw [zipValidity_take, zipValidity_drop]
      rfl
  | .timestamp, b, dt, s, l => by
      show some (zipValidity ((b.values.drop s).take l)
        ((b.validity.drop s).take l)) = _
      rw [zipValidity_take, zipValidity_drop]
      rfl
  | .vec t, b, dt, s, l => by
      show some (zipValidity
          ((offsetWindows ((b.offsets.drop s).take (l + 1))).map _)
          ((b.validity.drop s).take l)) = _
      rw [offsetWindows_take, offsetWindows_drop, List.map_take, List.map_drop,
        zipValidity_take, zipValidity_drop]
      rfl
  | .largeVec t, b, dt, s, l => by
      show some (zipValidity
          ((offsetWindows ((b.offsets.drop s).take (l + 1))).map _)
          ((b.validity.drop s).take l)) = _
      rw [offsetWindows_take, offsetWindows_drop, List.map_take, List.map_drop,
        zipValidity_take, zipValidity_drop]
      rfl

theorem itemsDec_option (s : Ty) (b : s.Builder) :
    itemsDec (.option s) b = (itemsDec s b).map (Option.map some) := by
  unfold itemsDec
  show (builderItems s b).map (arrow_deserialize (.option s)) = _
  rw [List.map_map]
  apply List.map_congr_left
  intro a _
  rfl

theorem mapO_internal_eq (t : Ty) (xs : List (Option t.ItemVal)) :
    mapO (arrow_deserialize_internal t) xs =
      mapO (fun a => (arrow_deserialize t a).bind id) xs :=
  mapO_congr _ _ xs (fun a _ => internal_eq_bind t a)

theorem internal_iter_slice (t : Ty) (b : t.Builder) (dt : DataType) (s l : Nat) :
    arrow_array_deserialize_iterator_internal t ⟨dt, (finalizePhys t b).slice s l⟩ =
      mapO (fun a => (arrow_deserialize t a).bind id)
        (((builderItems t b).drop s).take l) := by
  unfold arrow_array_deserialize_iterator_internal
  rw [slice_items t b dt s l]
  simp only [Option.some_bind]
  exact mapO_internal_eq t _

theorem zip_map_raw_congr {A B C : Type} (raw : Option B → C) (f g : A → B) :
    ∀ (ws : List A) (vl : List Bool),
    (∀ w ∈ ws, raw (some (f w)) = raw (some (g w))) →
    (zipValidity (ws.map f) vl).map raw = (zipValidity (ws.map g) vl).map raw
  | [], vl, _ => by simp [zipValidity]
  | _ :: _, [], _ => by simp [zipValidity]
  | w :: ws, bb :: vl, h => by
      have h1 := h w (by simp)
      have h2 := zip_map_raw_congr raw f g ws vl (fun a ha => h a (by simp [ha]))
      cases bb <;> simp_all [zipValidity]

/-- Core round-trip invariant: a successful push of `v` extends the raw
per-row decode view of the builder by exactly the decoded value `v`. -/
theorem serialize_items (t : Ty) : ∀ (v : t.Native) (b b2 : t.Builder),
    t.wf = true → bInv t b = true → arrow_serialize t v b = .ok b2 →
    itemsDec t b2 = itemsDec t b ++ [some (some v)] := by
  induction t with
  | prim p =>
      intro v b b2 _ hb h
      simp only [arrow_serialize] at h
      injection h with h
      subst h
      simp only [bInv, beq_iff_eq] at hb
      unfold itemsDec
      show (zipValidity (b.values ++ [v]) (b.validity ++ [true])).map
          (arrow_deserialize (.prim p)) = _
      rw [zipValidity_append _ _ _ _ hb, List.map_append]
      rfl
  | boolean =>
      intro v b b2 _ hb h
      simp only [arrow_serialize] at h
      injection h with h
      subst h
      simp only [bInv, beq_iff_eq] at hb
      unfold itemsDec
      show (zipValidity (b.values ++ [v]) (b.validity ++ [true])).map
          (arrow_deserialize .boolean) = _
      rw [zipValidity_append _ _ _ _ hb, List.map_append]
      rfl
  | str =>
      intro v b b2 _ hb h
      simp only [arrow_serialize] at h
      split at h
      · injection h with h
        subst h
        simp only [bInv, beq_iff_eq] at hb
        unfold itemsDec
        show (zipValidity (b.values ++ [v]) (b.validity ++ [true])).map
            (arrow_deserialize .str) = _
        rw [zipValidity_append _ _ _ _ hb, List.map_append]
        rfl
      · exact absurd h (by simp)
  | largeStr =>
      intro v b b2 _ hb h
      simp only [arrow_serialize] at h
      split at h
      · injection h with h
        subst h
        simp only [bInv, beq_iff_eq] at hb
        unfold itemsDec
        show (zipValidity (b.values ++ [v]) (b.validity ++ [true])).map
            (arrow_deserialize .largeStr) = _
        rw [zipValidity_append _ _ _ _ hb, List.map_append]
        rfl
      · exact absurd h (by simp)
  | binary =>
      intro v b b2 _ hb h
      simp only [arrow_serialize] at h
      split at h
      · injection h with h
        subst h
        simp only [bInv, beq_iff_eq] at hb
        unfold itemsDec
        show (zipValidity (b.values ++ [v]) (b.validity ++ [true])).map
            (arrow_deserialize .binary) = _
        rw [zipValidity_append _ _ _ _ hb, List.map_append]
        rfl
      · exact absurd h (by simp)
  | largeBinary =>
      intro v b b2 _ hb h
      simp only [arrow_serialize] at h
      split at h
      · injection h with h
        subst h
        simp only [bInv, beq_iff_eq] at hb
        unfold itemsDec
        show (zipValidity (b.values ++ [v]) (b.validity ++ [true])).map
            (arrow_deserialize .largeBinary) = _
        rw [zipValidity_append _ _ _ _ hb, List.map_append]
        rfl
      · exact absurd h (by simp)
  | date =>
      intro v b b2 _ hb h
      obtain ⟨d⟩ := v
      simp only [arrow_serialize] at h
      injection h with h
      subst h
      simp only [bInv, beq_iff_eq] at hb
      unfold itemsDec
      show (zipValidity
          (b.values ++ [NaiveDate.num_days_from_ce ⟨d⟩ - EPOCH_DAYS_FROM_CE])
          (b.validity ++ [true])).map (arrow_deserialize .date) = _
      rw [zipValidity_append _ _ _ _ hb, List.map_append]
      congr 1
      show [arrow_deserialize .date
          (some (NaiveDate.num_days_from_ce ⟨d⟩ - EPOCH_DAYS_FROM_CE))] =
        [some (some ⟨d⟩)]
      simp only [arrow_deserialize, Option.map_some', date32_to_date,
        NaiveDate.num_days_from_ce]
      rw [show d - EPOCH_DAYS_FROM_CE + EPOCH_DAYS_FROM_CE = d from by omega]
  | timestamp =>
      intro v b b2 _ hb h
      obtain ⟨ns⟩ := v
      simp only [arrow_serialize] at h
      injection h with h
      subst h
      simp only [bInv, beq_iff_eq] at hb
      unfold itemsDec
      show (zipValidity (b.values ++ [NaiveDateTime.timestamp_nanos ⟨ns⟩])
          (b.validity ++ [true])).map (arrow_deserialize .timestamp) = _
      rw [zipValidity_append _ _ _ _ hb, List.map_append]
      rfl
  | option s ihs =>
      intro v b b2 hwf hb h
      simp only [Ty.wf, Bool.and_eq_true] at hwf
      cases v with
      | some x =>
          have hx := ihs x b b2 hwf.2 hb h
          rw [itemsDec_option, itemsDec_option, hx, List.map_append]
          rfl
      | none =>
          have h2 : Except.ok (ε := ArrowError) (push_null s b) = .ok b2 := h
          injection h2 with h2
          subst h2
          have hpn : itemsDec s (push_null s b) = itemsDec s b ++ [some none] := by
            unfold itemsDec
            rw [push_null_items s b hb, List.map_append]
            simp [des_none s hwf.1]
          rw [itemsDec_option, itemsDec_option, hpn, List.map_append]
          rfl
  | vec s ihs =>
      intro v b b2 hwf hb h
      have hwfs : s.wf = true := hwf
      obtain ⟨vals, offs, vl⟩ := b
      rw [bInv_vec_iff] at hb
      obtain ⟨hne, hlen, hmono, hlast, hinv⟩ := hb
      simp only [arrow_serialize] at h
      split at h
      · exact absurd h (by simp)
      · rename_i c hf
        split at h
        · injection h with h
          subst h
          have fold : ∀ (l : List s.Native) (c0 c2 : s.Builder), bInv s c0 = true →
              serFold (fun x cc => arrow_serialize s x cc) l c0 = .ok c2 →
              itemsDec s c2 = itemsDec s c0 ++ l.map (fun x => some (some x)) := by
            intro l
            induction l with
            | nil =>
                intro c0 c2 hc hh
                simp only [serFold] at hh
                injection hh with hh
                subst hh
                simp
            | cons a r ihr =>
                intro c0 c2 hc hh
                simp only [serFold] at hh
                cases ha : arrow_serialize s a c0 with
                | error e => rw [ha] at hh; exact absurd hh (by simp)
                | ok c1 =>
                    rw [ha] at hh
                    have h1 := ihs a c0 c1 hwfs hc ha
                    have hc1 := (serialize_len_inv s a c0 c1 hc ha).1
                    have h2 := ihr c1 c2 hc1 hh
                    rw [h2, h1]
                    simp
          have hitems := fold v vals c hinv hf
          obtain ⟨hcInv, hcLen⟩ := serFold_len_inv s v vals c hinv hf
          have hvalsLen : (itemsDec s vals).length = builderLen s vals := by
            unfold itemsDec
            rw [List.length_map]
            exact builderItems_len s vals hinv
          have key : ∀ s0 l0 : Nat, s0 + l0 ≤ builderLen s vals →
              mapO (fun a => (arrow_deserialize s a).bind id)
                (((builderItems s c).drop s0).take l0) =
              mapO (fun a => (arrow_deserialize s a).bind id)
                (((builderItems s vals).drop s0).take l0) := by
            intro s0 l0 hsl
            apply mapO_raw_congr (arrow_deserialize s) (arrow_deserialize s)
              (fun d => d.bind id)
            rw [List.map_take, List.map_drop, List.map_take, List.map_drop]
            show ((itemsDec s c).drop s0).take l0 = ((itemsDec s vals).drop s0).take l0
            rw [hitems]
            exact drop_take_append _ _ _ _ (by omega)
          have slotDec : ∀ w : Nat × Nat, w.1 + w.2 ≤ builderLen s vals →
              arrow_deserialize (.vec s)
                (some ⟨s.dataType, (finalizePhys s c).slice w.1 w.2⟩) =
              arrow_deserialize (.vec s)
                (some ⟨s.dataType, (finalizePhys s vals).slice w.1 w.2⟩) := by
            intro w hw
            rw [vec_des_eq, vec_des_eq, internal_iter_slice, internal_iter_slice,
              key w.1 w.2 hw]
          unfold itemsDec
          show (zipValidity ((offsetWindows (offs ++ [builderLen s c])).map
              (fun w => AnyArray.mk s.dataType ((finalizePhys s c).slice w.1 w.2)))
              (vl ++ [true])).map (arrow_deserialize (.vec s)) = _
          rw [offsetWindows_append_last offs _ hne, List.map_append,
            zipValidity_append _ _ _ _ (by simp [offsetWindows_length, hlen]),
            List.map_append]
          congr 1
          · show (zipValidity ((offsetWindows offs).map
                (fun w => AnyArray.mk s.dataType ((finalizePhys s c).slice w.1 w.2)))
                vl).map (arrow_deserialize (.vec s)) =
              (zipValidity ((offsetWindows offs).map
                (fun w => AnyArray.mk s.dataType ((finalizePhys s vals).slice w.1 w.2)))
                vl).map (arrow_deserialize (.vec s))
            refine zip_map_raw_congr (arrow_deserialize (.vec s)) _ _
              (offsetWindows offs) vl (fun w hw => ?_)
            refine slotDec w ?_
            rw [← hlast]
            exact offsetWindows_bound offs hmono w hw
          · show [arrow_deserialize (.vec s) (some ⟨s.dataType,
                (finalizePhys s c).slice (offs.getLastD 0)
                  (builderLen s c - offs.getLastD 0)⟩)] = [some (some v)]
            rw [vec_des_eq, internal_iter_slice, hlast,
              show builderLen s c - builderLen s vals = v.length from by omega]
            have hnew : mapO (fun a => (arrow_deserialize s a).bind id)
                (((builderItems s c).drop (builderLen s vals)).take v.length) =
                some v := by
              apply mapO_bindid_allsome
              rw [List.map_take, List.map_drop]
              show ((itemsDec s c).drop (builderLen s vals)).take v.length = _
              rw [hitems, ← hvalsLen, List.drop_left,
                List.take_of_length_le (by simp)]
            rw [hnew]
            rfl
        · exact absurd h (by simp)
  | largeVec s ihs =>
      intro v b b2 hwf hb h
      have hwfs : s.wf = true := hwf
      obtain ⟨vals, offs, vl⟩ := b
      rw [bInv_largeVec_iff] at hb
      obtain ⟨hne, hlen, hmono, hlast, hinv⟩ := hb
      simp only [arrow_serialize] at h
      split at h
      · exact absurd h (by simp)
      · rename_i c hf
        split at h
        · injection h with h
          subst h
          have fold : ∀ (l : List s.Native) (c0 c2 : s.Builder), bInv s c0 = true →
              serFold (fun x cc => arrow_serialize s x cc) l c0 = .ok c2 →
              itemsDec s c2 = itemsDec s c0 ++ l.map (fun x => some (some x)) := by
            intro l
            induction l with
            | nil =>
                intro c0 c2 hc hh
                simp only [serFold] at hh
                injection hh with hh
                subst hh
                simp
            | cons a r ihr =>
                intro c0 c2 hc hh
                simp only [serFold] at hh
                cases ha : arrow_serialize s a c0 with
                | error e => rw [ha] at hh; exact absurd hh (by simp)
                | ok c1 =>
                    rw [ha] at hh
                    have h1 := ihs a c0 c1 hwfs hc ha
                    have hc1 := (serialize_len_inv s a c0 c1 hc ha).1
                    have h2 := ihr c1 c2 hc1 hh
                    rw [h2, h1]
                    simp
          have hitems := fold v vals c hinv hf
          obtain ⟨hcInv, hcLen⟩ := serFold_len_inv s v vals c hinv hf
          have hvalsLen : (itemsDec s vals).length = builderLen s vals := by
            unfold itemsDec
            rw [List.length_map]
            exact builderItems_len s vals hinv
          have key : ∀ s0 l0 : Nat, s0 + l0 ≤ builderLen s vals →
              mapO (fun a => (arrow_deserialize s a).bind id)
                (((builderItems s c).drop s0).take l0) =
              mapO (fun a => (arrow_deserialize s a).bind id)
                (((builderItems s vals).drop s0).take l0) := by
            intro s0 l0 hsl
            apply mapO_raw_congr (arrow_deserialize s) (arrow_deserialize s)
              (fun d => d.bind id)
            rw [List.map_take, List.map_drop, List.map_take, List.map_drop]
            show ((itemsDec s c).drop s0).take l0 = ((itemsDec s vals).drop s0).take l0
            rw [hitems]
            exact drop_take_append _ _ _ _ (by omega)
          have slotDec : ∀ w : Nat × Nat, w.1 + w.2 ≤ builderLen s vals →
              arrow_deserialize (.largeVec s)
                (some ⟨s.dataType, (finalizePhys s c).slice w.1 w.2⟩) =
              arrow_deserialize (.largeVec s)
                (some ⟨s.dataType, (finalizePhys s vals).slice w.1 w.2⟩) := by
            intro w hw
            rw [largeVec_des_eq, largeVec_des_eq, internal_iter_slice,
              internal_iter_slice, key w.1 w.2 hw]
          unfold itemsDec
          show (zipValidity ((offsetWindows (offs ++ [builderLen s c])).map
              (fun w => AnyArray.mk s.dataType ((finalizePhys s c).slice w.1 w.2)))
              (vl ++ [true])).map (arrow_deserialize (.largeVec s)) = _
          rw [offsetWindows_append_last offs _ hne, List.map_append,
            zipValidity_append _ _ _ _ (by simp [offsetWindows_length, hlen]),
            List.map_append]
          congr 1
          · show (zipValidity ((offsetWindows offs).map
                (fun w => AnyArray.mk s.dataType ((finalizePhys s c).slice w.1 w.2)))
                vl).map (arrow_deserialize (.largeVec s)) =
              (zipValidity ((offsetWindows offs).map
                (fun w => AnyArray.mk s.dataType ((finalizePhys s vals).slice w.1 w.2)))
                vl).map (arrow_deserialize (.largeVec s))
            refine zip_map_raw_congr (arrow_deserialize (.largeVec s)) _ _
              (offsetWindows offs) vl (fun w hw => ?_)
            refine slotDec w ?_
            rw [← hlast]
            exact offsetWindows_bound offs hmono w hw
          · show [arrow_deserialize (.largeVec s) (some ⟨s.dataType,
                (finalizePhys s c).slice (offs.getLastD 0)
                  (builderLen s c - offs.getLastD 0)⟩)] = [some (some v)]
            rw [largeVec_des_eq, internal_iter_slice, hlast,
              show builderLen s c - builderLen s vals = v.length from by omega]
            have hnew : mapO (fun a => (arrow_deserialize s a).bind id)
                (((builderItems s c).drop (builderLen s vals)).take v.length) =
                some v := by
              apply mapO_bindid_allsome
              rw [List.map_take, List.map_drop]
              show ((itemsDec s c).drop (builderLen s vals)).take v.length = _
              rw [hitems, ← hvalsLen, List.drop_left,
                List.take_of_length_le (by simp)]
            rw [hnew]
            rfl
        · exact absurd h (by simp)

/-! ### C1: round trip -/

/-- C1: for every supported logical type `t` and native value `v`, encoding
the one-element sequence `[v]` through the top-level `into_arrow` entry
point and decoding the resulting type-erased column through the top-level
`try_into_iter` entry point yields `[v]` again (no error, no panic),
including absent values and nested sequences. -/
theorem c1_roundtrip (t : Ty) (hwf : t.wf = true) (v : t.Native) (a : AnyArray)
    (h : into_arrow t [v] = .ok a) :
    try_into_iter t a = .ok (some [v]) := by
  simp only [into_arrow] at h
  cases hi : arrow_serialize_internal t [v] with
  | error e => rw [hi] at h; exact absurd h (by simp [Except.map])
  | ok b2 =>
      rw [hi] at h
      simp only [Except.map] at h
      injection h with h
      subst h
      have hf : serFold (arrow_serialize t) [v] (reserve t (new_array t) 1 0) =
          .ok b2 := hi
      simp only [serFold] at hf
      cases hs : arrow_serialize t v (reserve t (new_array t) 1 0) with
      | error e => rw [hs] at hf; exact absurd hf (by simp)
      | ok b1 =>
          rw [hs] at hf
          injection hf with hf
          subst hf
          have hb0 : bInv t (reserve t (new_array t) 1 0) = true := by
            rw [(reserve_fields t _ _ _).1]
            exact (new_array_inv t).1
          have hid : itemsDec t (reserve t (new_array t) 1 0) = [] := by
            unfold itemsDec
            rw [(reserve_fields t _ _ _).2.2, builderItems_new t]
            rfl
          have hitems := serialize_items t v _ b1 hwf hb0 hs
          rw [hid] at hitems
          simp only [try_into_iter, arrow_array_deserialize_iterator,
            arrow_array_deserialize_iterator_as_type]
          rw [if_neg (by simp [finalize])]
          congr 1
          unfold arrow_array_deserialize_iterator_internal
          rw [iter_finalize t b1]
          simp only [Option.some_bind]
          rw [mapO_internal_eq]
          apply mapO_bindid_allsome
          show itemsDec t b1 = _
          rw [hitems]
          rfl

/-- Witness for `c1_roundtrip`: a nested list of optional Int32 values,
containing both a present and an absent element, round trips. -/
theorem c1_roundtrip_witness :
    Ty.wf (.vec (.option (.prim .i32))) = true ∧
    try_into_iter (.vec (.option (.prim .i32)))
        ⟨.list "item" .int32 true,
          .listA .o32 [0, 2] .int32 (.prim .pI32 [1, 0] [true, false]) [true]⟩ =
      .ok (some [[some 1, none]]) :=
  ⟨by decide,
    c1_roundtrip (.vec (.option (.prim .i32))) (by decide) [some 1, none]
      ⟨.list "item" .int32 true,
        .listA .o32 [0, 2] .int32 (.prim .pI32 [1, 0] [true, false]) [true]⟩
      (by rfl)⟩
